import Mathlib

/-!
Verification development for the Sudoku workbench.

The C sources are shallowly embedded: `int **` tables become `List (List ℕ)`,
the moves linked list becomes a list of moves with a cursor index, machine
loops become fuel-indexed step functions, and the external LP/ILP optimizer
is modelled by its documented contract.
-/

namespace Sudoku

/-- A board is a 2-D integer table (`int **` in the source); entry 0 means empty. -/
abbrev Board := List (List ℕ)

/-- Read cell `(i, j)` of a board (`board[i][j]`); out-of-range reads default to 0. -/
def bget (b : Board) (i j : ℕ) : ℕ := (b.getD i []).getD j 0

/-- Write value `v` to cell `(i, j)` (`board[i][j] = v`); out-of-range writes are dropped. -/
def bset (b : Board) (i j v : ℕ) : Board := b.set i ((b.getD i []).set j v)

/-- The board is a well-formed `N × N` table. -/
def WF (N : ℕ) (b : Board) : Prop := b.length = N ∧ ∀ r ∈ b, r.length = N

instance (N : ℕ) (b : Board) : Decidable (WF N b) := by
  unfold WF; infer_instance

theorem length_bset (b : Board) (i j v : ℕ) : (bset b i j v).length = b.length := by
  simp [bset]

theorem getD_set {α : Type _} (l : List α) (m n : ℕ) (a d : α) :
    (l.set m a).getD n d = if m = n ∧ m < l.length then a else l.getD n d := by
  rw [List.getD_eq_getElem?_getD, List.getElem?_set, List.getD_eq_getElem?_getD]
  by_cases h1 : m = n
  · subst h1
    by_cases h2 : m < l.length
    · simp [h2]
    · simp [h2, List.getElem?_eq_none (Nat.le_of_not_lt h2)]
  · simp [h1]

theorem getD_eq_getElem {α : Type _} (l : List α) (j : ℕ) (d : α) (h : j < l.length) :
    l.getD j d = l[j] := by
  rw [List.getD_eq_getElem?_getD, List.getElem?_eq_getElem h, Option.getD_some]

theorem bget_bset (b : Board) (i j v i' j' : ℕ) :
    bget (bset b i j v) i' j' =
      if i = i' ∧ j = j' ∧ i < b.length ∧ j < (b.getD i []).length then v
      else bget b i' j' := by
  unfold bget bset
  rw [getD_set]
  by_cases hi : i = i' ∧ i < b.length
  · obtain ⟨rfl, hlen⟩ := hi
    rw [if_pos ⟨rfl, hlen⟩, getD_set]
    by_cases hj : j = j' ∧ j < (b.getD i []).length
    · obtain ⟨rfl, hjl⟩ := hj
      rw [if_pos ⟨rfl, hjl⟩, if_pos ⟨rfl, rfl, hlen, hjl⟩]
    · rw [if_neg hj, if_neg (by tauto)]
  · rw [if_neg hi, if_neg (by tauto)]

theorem bget_bset_same (b : Board) (i j v : ℕ)
    (hi : i < b.length) (hj : j < (b.getD i []).length) :
    bget (bset b i j v) i j = v := by
  rw [bget_bset, if_pos ⟨rfl, rfl, hi, hj⟩]

theorem bget_bset_ne (b : Board) (i j v i' j' : ℕ) (h : i ≠ i' ∨ j ≠ j') :
    bget (bset b i j v) i' j' = bget b i' j' := by
  rw [bget_bset, if_neg (by tauto)]

theorem row_getD_of_WF {N : ℕ} {b : Board} (hw : WF N b) {i : ℕ} (hi : i < N) :
    (b.getD i []).length = N := by
  obtain ⟨hlen, hrows⟩ := hw
  have hib : i < b.length := by omega
  rw [List.getD_eq_getElem?_getD, List.getElem?_eq_getElem hib, Option.getD_some]
  exact hrows _ (List.getElem_mem hib)

theorem WF_bset {N : ℕ} {b : Board} (hw : WF N b) (i j v : ℕ) :
    WF N (bset b i j v) := by
  obtain ⟨hlen, hrows⟩ := hw
  refine ⟨by simp [bset, hlen], ?_⟩
  intro r hr
  rcases List.mem_iff_getElem.mp hr with ⟨k, hk, hkr⟩
  simp only [bset] at hk hkr
  rw [List.getElem_set] at hkr
  by_cases hik : i = k
  · subst hik
    rw [if_pos rfl] at hkr
    have hib : i < b.length := by simpa using hk
    rw [← hkr, List.length_set]
    exact row_getD_of_WF ⟨hlen, hrows⟩ (by omega)
  · rw [if_neg hik] at hkr
    exact hkr ▸ hrows _ (List.getElem_mem (by simpa using hk))

/-! ## `is_legal_value` (Back_Tracking_Solver.c)

The legality scan: the tried value must appear nowhere in the cell's column,
row, or containing block. `true` models `LEGAL_VALUE`. -/

/-- Embedding of `is_legal_value` from Back_Tracking_Solver.c. -/
def is_legal_value (B : Board) (row_x col_y value : ℕ) (block_rows block_cols : ℕ) : Bool :=
  let N := block_cols * block_rows
  ((List.range N).all fun i => !(bget B i col_y == value) && !(bget B row_x i == value))
  &&
  (let i := row_x / block_rows
   let j := col_y / block_cols
   (List.range block_rows).all fun l =>
     (List.range block_cols).all fun m =>
       !(bget B (i * block_rows + l) (j * block_cols + m) == value))

/-- Two cells of the grid see each other: same row, same column, or same block
(block index `(r / block_rows, c / block_cols)`). -/
def related (block_rows block_cols r c r' c' : ℕ) : Prop :=
  r = r' ∨ c = c' ∨ (r / block_rows = r' / block_rows ∧ c / block_cols = c' / block_cols)

instance (br bc r c r' c' : ℕ) : Decidable (related br bc r c r' c') := by
  unfold related; infer_instance

theorem related_refl (br bc r c : ℕ) : related br bc r c r c := Or.inl rfl

theorem related_symm {br bc r c r' c' : ℕ} (h : related br bc r c r' c') :
    related br bc r' c' r c := by
  rcases h with h | h | ⟨h1, h2⟩
  · exact Or.inl h.symm
  · exact Or.inr (Or.inl h.symm)
  · exact Or.inr (Or.inr ⟨h1.symm, h2.symm⟩)

/-- Characterization of the legality scan: the value is legal at `(r, c)` iff no
cell related to `(r, c)` holds it.  (The scan inspects the cell itself as well,
which is harmless in all uses because the cell is zero and `value` is not.) -/
theorem is_legal_value_iff {b : Board} {r c v br bc : ℕ}
    (hbr : 0 < br) (hbc : 0 < bc) (hr : r < br * bc) (hc : c < br * bc) :
    is_legal_value b r c v br bc = true ↔
      ∀ r' c', r' < br * bc → c' < br * bc → related br bc r c r' c' → bget b r' c' ≠ v := by
  unfold is_legal_value
  simp only [List.all_eq_true, List.mem_range, Bool.and_eq_true, bne,
    Bool.not_eq_true', beq_eq_false_iff_ne, ne_eq, Nat.mul_comm bc br]
  constructor
  · rintro ⟨hrowcol, hblock⟩ r' c' hr' hc' hrel
    rcases hrel with rfl | rfl | ⟨h1, h2⟩
    · exact (hrowcol c' hc').2
    · exact (hrowcol r' hr').1
    · have hl : r' % br < br := Nat.mod_lt _ hbr
      have hm : c' % bc < bc := Nat.mod_lt _ hbc
      have := hblock (r' % br) hl (c' % bc) hm
      rw [h1, h2, Nat.mul_comm (r' / br) br, Nat.mul_comm (c' / bc) bc] at this
      rwa [Nat.div_add_mod, Nat.div_add_mod] at this
  · intro h
    refine ⟨fun i hi => ⟨?_, ?_⟩, fun l hl m hm => ?_⟩
    · exact h i c hi hc (Or.inr (Or.inl rfl))
    · exact h r i hr hi (Or.inl rfl)
    · have hrb : r / br < br * bc / br :=
        Nat.div_lt_div_of_lt_of_dvd ⟨bc, rfl⟩ hr
      have hcb : c / bc < br * bc / bc :=
        Nat.div_lt_div_of_lt_of_dvd ⟨br, Nat.mul_comm br bc⟩ hc
      have hrn : r / br * br + l < br * bc := by
        have h2 : (r / br + 1) * br ≤ br * bc / br * br := Nat.mul_le_mul_right _ (by omega)
        have h3 : br * bc / br * br ≤ br * bc := Nat.div_mul_le_self _ br
        nlinarith
      have hcn : c / bc * bc + m < br * bc := by
        have h2 : (c / bc + 1) * bc ≤ br * bc / bc * bc := Nat.mul_le_mul_right _ (by omega)
        have h3 : br * bc / bc * bc ≤ br * bc := Nat.div_mul_le_self _ bc
        nlinarith
      refine h _ _ hrn hcn (Or.inr (Or.inr ⟨?_, ?_⟩))
      · rw [show r / br * br + l = l + r / br * br from by ring,
          Nat.add_mul_div_right _ _ hbr, Nat.div_eq_of_lt hl, Nat.zero_add]
      · rw [show c / bc * bc + m = m + c / bc * bc from by ring,
          Nat.add_mul_div_right _ _ hbc, Nat.div_eq_of_lt hm, Nat.zero_add]

/-! ## `get_next_cell` (Back_Tracking_Solver.c)

The row-major scan for the next empty cell.  A linear position `p` encodes the
cell `(p / N, p % N)`; stepping `p + 1` is exactly the source's
`j++` / `j = 0; i++` advance, and `none` models the `(-1, -1)` sentinel. -/

/-- Embedding of `get_next_cell` from Back_Tracking_Solver.c. -/
def get_next_cell (b : Board) (N p : ℕ) : Option (ℕ × ℕ) :=
  if h : p < N * N then
    if bget b (p / N) (p % N) = 0 then some (p / N, p % N)
    else get_next_cell b N (p + 1)
  else none
termination_by N * N - p
decreasing_by omega

theorem get_next_cell_none_aux (b : Board) (N : ℕ) :
    ∀ k p, N * N - p ≤ k →
      (get_next_cell b N p = none ↔
        ∀ q, p ≤ q → q < N * N → bget b (q / N) (q % N) ≠ 0) := by
  intro k
  induction k with
  | zero =>
    intro p hp
    rw [get_next_cell, dif_neg (by omega)]
    simp only [true_iff]
    intro q hq1 hq2
    omega
  | succ k IH =>
    intro p hp
    rw [get_next_cell]
    by_cases h : p < N * N
    · rw [dif_pos h]
      by_cases hz : bget b (p / N) (p % N) = 0
      · rw [if_pos hz]
        simp only [reduceCtorEq, false_iff, not_forall]
        exact ⟨p, le_refl p, h, fun hc => hc hz⟩
      · rw [if_neg hz, IH (p + 1) (by omega)]
        constructor
        · intro hall q hq1 hq2
          rcases Nat.eq_or_lt_of_le hq1 with rfl | hlt
          · exact hz
          · exact hall q hlt hq2
        · intro hall q hq1 hq2
          exact hall q (by omega) hq2
    · rw [dif_neg h]
      simp only [true_iff]
      intro q hq1 hq2
      omega

theorem get_next_cell_none_iff (b : Board) (N p : ℕ) :
    get_next_cell b N p = none ↔
      ∀ q, p ≤ q → q < N * N → bget b (q / N) (q % N) ≠ 0 :=
  get_next_cell_none_aux b N (N * N - p) p le_rfl

theorem get_next_cell_some_aux (b : Board) (N : ℕ) :
    ∀ k p i j, N * N - p ≤ k → get_next_cell b N p = some (i, j) →
      p ≤ i * N + j ∧ i < N ∧ j < N ∧ bget b i j = 0 ∧
        ∀ q, p ≤ q → q < i * N + j → bget b (q / N) (q % N) ≠ 0 := by
  intro k
  induction k with
  | zero =>
    intro p i j hp hsome
    rw [get_next_cell, dif_neg (by omega)] at hsome
    exact absurd hsome (by simp)
  | succ k IH =>
    intro p i j hp hsome
    rw [get_next_cell] at hsome
    by_cases h : p < N * N
    · rw [dif_pos h] at hsome
      have hN : 0 < N := by
        rcases Nat.eq_zero_or_pos N with rfl | hN
        · omega
        · exact hN
      by_cases hz : bget b (p / N) (p % N) = 0
      · rw [if_pos hz] at hsome
        obtain ⟨rfl, rfl⟩ : p / N = i ∧ p % N = j := by
          have := Option.some_injective _ hsome
          exact ⟨congrArg Prod.fst this, congrArg Prod.snd this⟩
        have hpq : p / N * N + p % N = p := by
          rw [Nat.mul_comm, Nat.div_add_mod]
        refine ⟨by omega, ?_, Nat.mod_lt _ hN, hz, ?_⟩
        · exact Nat.div_lt_of_lt_mul (by omega)
        · intro q hq1 hq2
          omega
      · rw [if_neg hz] at hsome
        obtain ⟨h1, h2, h3, h4, h5⟩ := IH (p + 1) i j (by omega) hsome
        refine ⟨by omega, h2, h3, h4, ?_⟩
        intro q hq1 hq2
        rcases Nat.eq_or_lt_of_le hq1 with rfl | hlt
        · exact hz
        · exact h5 q hlt hq2
    · rw [dif_neg h] at hsome
      exact absurd hsome (by simp)

theorem get_next_cell_some (b : Board) (N p i j : ℕ)
    (hsome : get_next_cell b N p = some (i, j)) :
    p ≤ i * N + j ∧ i < N ∧ j < N ∧ bget b i j = 0 ∧
      ∀ q, p ≤ q → q < i * N + j → bget b (q / N) (q % N) ≠ 0 :=
  get_next_cell_some_aux b N (N * N - p) p i j le_rfl hsome

/-! ## Empty-cell accounting -/

/-- Number of empty cells in the `N × N` range of the board. -/
def emptyCount (N : ℕ) (b : Board) : ℕ :=
  ∑ i ∈ Finset.range N, ∑ j ∈ Finset.range N, if bget b i j = 0 then 1 else 0

theorem emptyCount_bset {N : ℕ} {b : Board} {i j v : ℕ}
    (hi : i < N) (hj : j < N) (hib : i < b.length) (hjb : j < (b.getD i []).length)
    (hz : bget b i j = 0) (hv : v ≠ 0) :
    emptyCount N (bset b i j v) + 1 = emptyCount N b := by
  unfold emptyCount
  have hmem_i : i ∈ Finset.range N := Finset.mem_range.mpr hi
  have hmem_j : j ∈ Finset.range N := Finset.mem_range.mpr hj
  rw [← Finset.sum_erase_add (Finset.range N)
      (fun i' => ∑ j' ∈ Finset.range N, if bget (bset b i j v) i' j' = 0 then (1 : ℕ) else 0)
      hmem_i,
    ← Finset.sum_erase_add (Finset.range N)
      (fun i' => ∑ j' ∈ Finset.range N, if bget b i' j' = 0 then (1 : ℕ) else 0) hmem_i]
  have hrows : ∑ i' ∈ (Finset.range N).erase i,
        (∑ j' ∈ Finset.range N, if bget (bset b i j v) i' j' = 0 then (1 : ℕ) else 0)
      = ∑ i' ∈ (Finset.range N).erase i,
        (∑ j' ∈ Finset.range N, if bget b i' j' = 0 then (1 : ℕ) else 0) := by
    refine Finset.sum_congr rfl fun i' hi' => Finset.sum_congr rfl fun j' _ => ?_
    rw [bget_bset_ne _ _ _ _ _ _ (Or.inl (Ne.symm (Finset.ne_of_mem_erase hi')))]
  have hcols : (∑ j' ∈ Finset.range N, if bget (bset b i j v) i j' = 0 then (1 : ℕ) else 0) + 1
      = ∑ j' ∈ Finset.range N, if bget b i j' = 0 then (1 : ℕ) else 0 := by
    rw [← Finset.sum_erase_add (Finset.range N)
        (fun j' => if bget (bset b i j v) i j' = 0 then (1 : ℕ) else 0) hmem_j,
      ← Finset.sum_erase_add (Finset.range N)
        (fun j' => if bget b i j' = 0 then (1 : ℕ) else 0) hmem_j]
    have h1 : ∑ j' ∈ (Finset.range N).erase j,
          (if bget (bset b i j v) i j' = 0 then (1 : ℕ) else 0)
        = ∑ j' ∈ (Finset.range N).erase j,
          (if bget b i j' = 0 then (1 : ℕ) else 0) := by
      refine Finset.sum_congr rfl fun j' hj' => ?_
      rw [bget_bset_ne _ _ _ _ _ _ (Or.inr (Ne.symm (Finset.ne_of_mem_erase hj')))]
    rw [h1, bget_bset_same b i j v hib hjb, hz]
    simp [hv]
  rw [hrows]
  omega

theorem emptyCount_bset_lt {N : ℕ} {b : Board} {i j v : ℕ}
    (hi : i < N) (hj : j < N) (hib : i < b.length) (hjb : j < (b.getD i []).length)
    (hz : bget b i j = 0) (hv : v ≠ 0) :
    emptyCount N (bset b i j v) < emptyCount N b := by
  have := emptyCount_bset hi hj hib hjb hz hv
  omega

/-! ## The completion specification

A completion assigns a value `1..N` to every cell (encoded as
`f : Fin N → Fin N → Fin N`, value `f i j + 1`), agrees with the filled cells
of the partial board, and has no two related cells with equal values. -/

/-- The assignment `f` agrees with every filled cell of `b` (value `f i j + 1`). -/
def Extends (br bc : ℕ) (b : Board) (f : Fin (br * bc) → Fin (br * bc) → Fin (br * bc)) :
    Prop :=
  ∀ i j : Fin (br * bc), bget b i j ≠ 0 → (f i j : ℕ) + 1 = bget b i j

/-- No two distinct related cells of the full assignment hold the same value. -/
def AssignLegal (br bc : ℕ) (f : Fin (br * bc) → Fin (br * bc) → Fin (br * bc)) : Prop :=
  ∀ r c r' c' : Fin (br * bc), related br bc r c r' c' → (r ≠ r' ∨ c ≠ c') →
    f r c ≠ f r' c'

instance (br bc : ℕ) (b : Board) (f : Fin (br * bc) → Fin (br * bc) → Fin (br * bc)) :
    Decidable (Extends br bc b f) := by
  unfold Extends; infer_instance

instance (br bc : ℕ) (f : Fin (br * bc) → Fin (br * bc) → Fin (br * bc)) :
    Decidable (AssignLegal br bc f) := by
  unfold AssignLegal; infer_instance

/-- The set of completions of the partial board `b`. -/
def compSet (br bc : ℕ) (b : Board) :
    Finset (Fin (br * bc) → Fin (br * bc) → Fin (br * bc)) :=
  Finset.univ.filter fun f => Extends br bc b f ∧ AssignLegal br bc f

/-- The number of complete assignments of `1..N` to the cells that respect the
filled cells and the row/column/block uniqueness constraints. -/
def completionCount (br bc : ℕ) (b : Board) : ℕ := (compSet br bc b).card

/-- Every entry of the `N × N` grid lies in `0..N`. -/
def ValuesLE (N : ℕ) (b : Board) : Prop := ∀ i, i < N → ∀ j, j < N → bget b i j ≤ N

/-- No two distinct related filled cells hold the same value (a legal partial board). -/
def FilledLegal (br bc : ℕ) (b : Board) : Prop :=
  ∀ r, r < br * bc → ∀ c, c < br * bc → ∀ r', r' < br * bc → ∀ c', c' < br * bc →
    related br bc r c r' c' → (r ≠ r' ∨ c ≠ c') → bget b r c ≠ 0 →
    bget b r c ≠ bget b r' c'

instance (N : ℕ) (b : Board) : Decidable (ValuesLE N b) := by
  unfold ValuesLE; infer_instance

instance (br bc : ℕ) (b : Board) : Decidable (FilledLegal br bc b) :=
  decidable_of_iff (∀ r c r' c' : Fin (br * bc),
      related br bc r c r' c' → ((r : ℕ) ≠ r' ∨ (c : ℕ) ≠ c') → bget b r c ≠ 0 →
        bget b r c ≠ bget b r' c')
    ⟨fun h r hr c hc r' hr' c' hc' => h ⟨r, hr⟩ ⟨c, hc⟩ ⟨r', hr'⟩ ⟨c', hc'⟩,
     fun h r c r' c' => h r r.isLt c c.isLt r' r'.isLt c' c'.isLt⟩

/-! ## Splitting the completion set at an empty cell -/

theorem mem_compSet {br bc : ℕ} {b : Board}
    {f : Fin (br * bc) → Fin (br * bc) → Fin (br * bc)} :
    f ∈ compSet br bc b ↔ Extends br bc b f ∧ AssignLegal br bc f := by
  unfold compSet
  simp

theorem Extends_bset_iff {br bc : ℕ} {b : Board} {i j v : ℕ}
    (hw : WF (br * bc) b) (hi : i < br * bc) (hj : j < br * bc)
    (hz : bget b i j = 0) (hv1 : 1 ≤ v)
    (f : Fin (br * bc) → Fin (br * bc) → Fin (br * bc)) :
    Extends br bc (bset b i j v) f ↔
      Extends br bc b f ∧ (f ⟨i, hi⟩ ⟨j, hj⟩ : ℕ) + 1 = v := by
  have hib : i < b.length := by rw [hw.1]; exact hi
  have hjb : j < (b.getD i []).length := by rw [row_getD_of_WF hw hi]; exact hj
  constructor
  · intro he
    refine ⟨fun r c hrc => ?_, ?_⟩
    · have hne : i ≠ (r : ℕ) ∨ j ≠ (c : ℕ) := by
        by_contra hco
        push_neg at hco
        rw [← hco.1, ← hco.2] at hrc
        exact hrc hz
      have h3 : (f r c : ℕ) + 1 = bget (bset b i j v) r c :=
        he r c (show bget (bset b i j v) (r : ℕ) (c : ℕ) ≠ 0 from by
          rw [bget_bset_ne b i j v (r : ℕ) (c : ℕ) hne]; exact hrc)
      rwa [bget_bset_ne b i j v (r : ℕ) (c : ℕ) hne] at h3
    · have h3 : (f ⟨i, hi⟩ ⟨j, hj⟩ : ℕ) + 1 = bget (bset b i j v) i j :=
        he ⟨i, hi⟩ ⟨j, hj⟩ (show bget (bset b i j v) i j ≠ 0 from by
          rw [bget_bset_same b i j v hib hjb]; omega)
      rwa [bget_bset_same b i j v hib hjb] at h3
  · rintro ⟨he, hval⟩ r c hrc
    by_cases hco : i = (r : ℕ) ∧ j = (c : ℕ)
    · obtain ⟨h1, h2⟩ := hco
      have hfe : f ⟨i, hi⟩ ⟨j, hj⟩ = f r c := by
        rw [show (⟨i, hi⟩ : Fin (br * bc)) = r from Fin.ext h1,
          show (⟨j, hj⟩ : Fin (br * bc)) = c from Fin.ext h2]
      show (f r c : ℕ) + 1 = bget (bset b i j v) (r : ℕ) (c : ℕ)
      rw [← hfe, hval, ← h1, ← h2, bget_bset_same b i j v hib hjb]
    · have hne : i ≠ (r : ℕ) ∨ j ≠ (c : ℕ) := by tauto
      have hrc' : bget b (r : ℕ) (c : ℕ) ≠ 0 := by
        have := bget_bset_ne b i j v (r : ℕ) (c : ℕ) hne
        exact this ▸ hrc
      have h3 := he r c hrc'
      show (f r c : ℕ) + 1 = bget (bset b i j v) (r : ℕ) (c : ℕ)
      rw [bget_bset_ne b i j v (r : ℕ) (c : ℕ) hne]
      exact h3

theorem compSet_partition {br bc : ℕ} {b : Board} {i j : ℕ}
    (hw : WF (br * bc) b) (hi : i < br * bc) (hj : j < br * bc)
    (hz : bget b i j = 0) :
    (compSet br bc b).card
      = ∑ k ∈ Finset.range (br * bc), (compSet br bc (bset b i j (k + 1))).card := by
  have hset : compSet br bc b
      = (Finset.range (br * bc)).biUnion
          (fun k => compSet br bc (bset b i j (k + 1))) := by
    ext f
    rw [Finset.mem_biUnion, mem_compSet]
    constructor
    · rintro ⟨he, hl⟩
      refine ⟨(f ⟨i, hi⟩ ⟨j, hj⟩ : ℕ), Finset.mem_range.mpr (Fin.is_lt _), ?_⟩
      rw [mem_compSet, Extends_bset_iff hw hi hj hz (by omega) f]
      exact ⟨⟨he, rfl⟩, hl⟩
    · rintro ⟨k, _, hmem⟩
      rw [mem_compSet, Extends_bset_iff hw hi hj hz (by omega) f] at hmem
      exact ⟨hmem.1.1, hmem.2⟩
  rw [hset]
  refine Finset.card_biUnion ?_
  intro k1 _ k2 _ hne
  refine Finset.disjoint_left.mpr fun f hf1 hf2 => ?_
  rw [mem_compSet, Extends_bset_iff hw hi hj hz (by omega) f] at hf1 hf2
  have e1 := hf1.1.2
  have e2 := hf2.1.2
  exact hne (by omega)

theorem compSet_eq_empty_of_conflict {br bc : ℕ} {b : Board} {i j v : ℕ}
    (hw : WF (br * bc) b) (hi : i < br * bc) (hj : j < br * bc)
    (hz : bget b i j = 0) (hv1 : 1 ≤ v)
    (hc : ∃ r' c', r' < br * bc ∧ c' < br * bc ∧ related br bc i j r' c' ∧
      (i ≠ r' ∨ j ≠ c') ∧ bget b r' c' = v) :
    compSet br bc (bset b i j v) = ∅ := by
  obtain ⟨r', c', hr', hc', hrel, hne, hval⟩ := hc
  rw [Finset.eq_empty_iff_forall_not_mem]
  intro f hf
  rw [mem_compSet, Extends_bset_iff hw hi hj hz hv1 f] at hf
  obtain ⟨⟨he, hfij⟩, hl⟩ := hf
  have h3 : (f ⟨r', hr'⟩ ⟨c', hc'⟩ : ℕ) + 1 = bget b r' c' :=
    he ⟨r', hr'⟩ ⟨c', hc'⟩ (show bget b r' c' ≠ 0 from by rw [hval]; omega)
  have heq : f ⟨i, hi⟩ ⟨j, hj⟩ = f ⟨r', hr'⟩ ⟨c', hc'⟩ := Fin.ext (by omega)
  refine hl ⟨i, hi⟩ ⟨j, hj⟩ ⟨r', hr'⟩ ⟨c', hc'⟩ hrel ?_ heq
  exact hne.imp (fun h hh => h (congrArg Fin.val hh)) (fun h hh => h (congrArg Fin.val hh))

theorem compSet_card_of_full {br bc : ℕ} {b : Board}
    (hvle : ValuesLE (br * bc) b) (hfl : FilledLegal br bc b)
    (hfull : ∀ r c, r < br * bc → c < br * bc → bget b r c ≠ 0) :
    (compSet br bc b).card = 1 := by
  have hlt : ∀ r c : Fin (br * bc), bget b r c - 1 < br * bc := by
    intro r c
    have h1 := hvle r r.is_lt c c.is_lt
    have h2 := hfull r c r.is_lt c.is_lt
    omega
  rw [Finset.card_eq_one]
  refine ⟨fun r c => ⟨bget b r c - 1, hlt r c⟩, ?_⟩
  ext f
  rw [mem_compSet, Finset.mem_singleton]
  constructor
  · rintro ⟨he, _⟩
    funext r c
    have h3 := he r c (hfull r c r.is_lt c.is_lt)
    refine Fin.ext ?_
    show (f r c : ℕ) = bget b (r : ℕ) (c : ℕ) - 1
    omega
  · rintro rfl
    refine ⟨fun r c hrc => ?_, fun r c r' c' hrel hne heq => ?_⟩
    · have h1 := hfull r c r.is_lt c.is_lt
      show bget b (r : ℕ) (c : ℕ) - 1 + 1 = bget b (r : ℕ) (c : ℕ)
      omega
    · have hne' : (r : ℕ) ≠ (r' : ℕ) ∨ (c : ℕ) ≠ (c' : ℕ) :=
        hne.imp (fun h hh => h (Fin.ext hh)) (fun h hh => h (Fin.ext hh))
      have hfl' := hfl r r.is_lt c c.is_lt r' r'.is_lt c' c'.is_lt hrel hne'
        (hfull r c r.is_lt c.is_lt)
      have h1 := hfull r c r.is_lt c.is_lt
      have h2 := hfull r' c' r'.is_lt c'.is_lt
      have hv : bget b (r : ℕ) (c : ℕ) - 1 = bget b (r' : ℕ) (c' : ℕ) - 1 :=
        congrArg Fin.val heq
      exact hfl' (by omega)

theorem FilledLegal_bset {br bc : ℕ} {b : Board} {i j v : ℕ}
    (hbr : 0 < br) (hbc : 0 < bc)
    (hw : WF (br * bc) b) (hfl : FilledLegal br bc b)
    (hi : i < br * bc) (hj : j < br * bc) (hz : bget b i j = 0) (hv1 : 1 ≤ v)
    (hleg : is_legal_value b i j v br bc = true) :
    FilledLegal br bc (bset b i j v) := by
  have hib : i < b.length := by rw [hw.1]; exact hi
  have hjb : j < (b.getD i []).length := by rw [row_getD_of_WF hw hi]; exact hj
  have hnov := (is_legal_value_iff hbr hbc hi hj).mp hleg
  intro r hr c hc r' hr' c' hc' hrel hne hrc0
  by_cases h1 : i = r ∧ j = c
  · obtain ⟨rfl, rfl⟩ := h1
    rw [bget_bset_same b _ _ v hib hjb]
    rw [bget_bset_ne _ _ _ _ _ _ hne]
    exact fun hvv => (hnov r' c' hr' hc' hrel) hvv.symm
  · have hne1 : i ≠ r ∨ j ≠ c := by tauto
    rw [bget_bset_ne _ _ _ _ _ _ hne1] at hrc0 ⊢
    by_cases h2 : i = r' ∧ j = c'
    · obtain ⟨rfl, rfl⟩ := h2
      rw [bget_bset_same b _ _ v hib hjb]
      exact fun hvv => hnov r c hr hc (related_symm hrel) hvv
    · have hne2 : i ≠ r' ∨ j ≠ c' := by tauto
      rw [bget_bset_ne _ _ _ _ _ _ hne2]
      exact hfl r hr c hc r' hr' c' hc' hrel hne hrc0

theorem ValuesLE_bset {N : ℕ} {b : Board} {i j v : ℕ}
    (h : ValuesLE N b) (hv : v ≤ N) : ValuesLE N (bset b i j v) := by
  intro r hr c hc
  rw [bget_bset]
  split_ifs with hh
  · exact hv
  · exact h r hr c hc

theorem emptyCount_pos {N : ℕ} {b : Board} {i j : ℕ}
    (hi : i < N) (hj : j < N) (hz : bget b i j = 0) : 0 < emptyCount N b := by
  unfold emptyCount
  have hrow : (1 : ℕ) ≤ ∑ j' ∈ Finset.range N, if bget b i j' = 0 then 1 else 0 := by
    have h1 : (if bget b i j = 0 then (1 : ℕ) else 0) = 1 := if_pos hz
    have h2 : (if bget b i j = 0 then (1 : ℕ) else 0)
        ≤ ∑ j' ∈ Finset.range N, if bget b i j' = 0 then (1 : ℕ) else 0 :=
      Finset.single_le_sum (f := fun j' => if bget b i j' = 0 then (1 : ℕ) else 0)
        (fun _ _ => Nat.zero_le _) (Finset.mem_range.mpr hj)
    omega
  have h3 : (∑ j' ∈ Finset.range N, if bget b i j' = 0 then (1 : ℕ) else 0)
      ≤ ∑ i' ∈ Finset.range N, ∑ j' ∈ Finset.range N, if bget b i' j' = 0 then (1 : ℕ) else 0 :=
    Finset.single_le_sum
      (f := fun i' => ∑ j' ∈ Finset.range N, if bget b i' j' = 0 then (1 : ℕ) else 0)
      (fun _ _ => Nat.zero_le _) (Finset.mem_range.mpr hi)
  omega

theorem full_of_get_next_cell_none {b : Board} {N p : ℕ}
    (hnone : get_next_cell b N p = none)
    (hpre : ∀ q, q < p → q < N * N → bget b (q / N) (q % N) ≠ 0) :
    ∀ r c, r < N → c < N → bget b r c ≠ 0 := by
  intro r c hr hc
  have hN0 : 0 < N := by omega
  have hb : r * N + c < N * N := by nlinarith
  have e1 : (r * N + c) / N = r := by
    rw [show r * N + c = c + r * N from by ring, Nat.add_mul_div_right _ _ hN0,
      Nat.div_eq_of_lt hc, Nat.zero_add]
  have e2 : (r * N + c) % N = c := by
    rw [show r * N + c = c + r * N from by ring, Nat.add_mul_mod_self_right,
      Nat.mod_eq_of_lt hc]
  by_cases hq : r * N + c < p
  · have := hpre (r * N + c) hq hb
    rwa [e1, e2] at this
  · have := (get_next_cell_none_iff b N p).mp hnone (r * N + c) (by omega) hb
    rwa [e1, e2] at this

/-! ## The recursive solution count

`cnt` is the mathematical (recursive) counterpart of the iterative `backTrack`
loop: starting from scan position `p`, it finds the next empty cell and sums,
over the values legal there, the counts of the boards extending the cell by
that value.  `cntV` enumerates the candidate values `v, v+1, …, N`. -/

mutual

def cnt (br bc : ℕ) (b : Board) (p : ℕ) : ℕ :=
  match get_next_cell b (br * bc) p with
  | none => 1
  | some (i, j) => cntV br bc b i j 1
termination_by (emptyCount (br * bc) b, br * bc + 2)
decreasing_by
exact Prod.Lex.right _ (by omega)

def cntV (br bc : ℕ) (b : Board) (i j v : ℕ) : ℕ :=
  if h0 : br * bc + 1 ≤ v then 0
  else
    (if h : is_legal_value b i j v br bc = true ∧ i < br * bc ∧ j < br * bc ∧
        i < b.length ∧ j < (b.getD i []).length ∧ bget b i j = 0 ∧ 1 ≤ v then
      cnt br bc (bset b i j v) (i * (br * bc) + j)
    else 0) + cntV br bc b i j (v + 1)
termination_by (emptyCount (br * bc) b, br * bc + 1 - v)
decreasing_by
· exact Prod.Lex.left _ _
    (emptyCount_bset_lt h.2.1 h.2.2.1 h.2.2.2.1 h.2.2.2.2.1 h.2.2.2.2.2.1 (by omega))
· exact Prod.Lex.right _ (by omega)

end

theorem cnt_none {br bc : ℕ} {b : Board} {p : ℕ}
    (hnc : get_next_cell b (br * bc) p = none) : cnt br bc b p = 1 := by
  rw [cnt.eq_def, hnc]

theorem cnt_some {br bc : ℕ} {b : Board} {p i j : ℕ}
    (hnc : get_next_cell b (br * bc) p = some (i, j)) :
    cnt br bc b p = cntV br bc b i j 1 := by
  rw [cnt.eq_def, hnc]

theorem cntV_of_ge {br bc : ℕ} {b : Board} {i j v : ℕ} (h : br * bc + 1 ≤ v) :
    cntV br bc b i j v = 0 := by
  rw [cntV.eq_def, dif_pos h]

theorem cntV_step {br bc : ℕ} {b : Board} {i j v : ℕ} (h : ¬ br * bc + 1 ≤ v) :
    cntV br bc b i j v =
      (if is_legal_value b i j v br bc = true ∧ i < br * bc ∧ j < br * bc ∧
          i < b.length ∧ j < (b.getD i []).length ∧ bget b i j = 0 ∧ 1 ≤ v then
        cnt br bc (bset b i j v) (i * (br * bc) + j)
      else 0) + cntV br bc b i j (v + 1) := by
  rw [cntV.eq_def, dif_neg h]
  congr 1

/-- A linear index below `i * N + j` (with `j < N`) decodes to a cell other
than `(i, j)`. -/
theorem decode_ne_of_lt {N q i j : ℕ} (hj : j < N) (hq : q < i * N + j) :
    q / N ≠ i ∨ q % N ≠ j := by
  by_contra hco
  push_neg at hco
  have hdm : N * (q / N) + q % N = q := Nat.div_add_mod q N
  rw [hco.1, hco.2, Nat.mul_comm N i] at hdm
  omega

theorem cnt_full_case {br bc : ℕ} {b : Board} {p : ℕ}
    (hv : ValuesLE (br * bc) b) (hf : FilledLegal br bc b)
    (hpre : ∀ q, q < p → q < (br * bc) * (br * bc) →
      bget b (q / (br * bc)) (q % (br * bc)) ≠ 0)
    (hnc : get_next_cell b (br * bc) p = none) :
    cnt br bc b p = completionCount br bc b := by
  rw [cnt_none hnc]
  unfold completionCount
  exact (compSet_card_of_full hv hf (full_of_get_next_cell_none hnc hpre)).symm

/-- The recursive count equals the number of completions of the board:
induction on the number of empty cells, splitting the completion set at the
first empty cell. -/
theorem cnt_eq_card {br bc : ℕ} (hbr : 0 < br) (hbc : 0 < bc) :
    ∀ n (b : Board) (p : ℕ), emptyCount (br * bc) b ≤ n → WF (br * bc) b →
      ValuesLE (br * bc) b → FilledLegal br bc b →
      (∀ q, q < p → q < (br * bc) * (br * bc) →
        bget b (q / (br * bc)) (q % (br * bc)) ≠ 0) →
      cnt br bc b p = completionCount br bc b := by
  intro n
  induction n with
  | zero =>
    intro b p he hw hv hf hpre
    cases hnc : get_next_cell b (br * bc) p with
    | none => exact cnt_full_case hv hf hpre hnc
    | some pr =>
      exfalso
      obtain ⟨i, j⟩ := pr
      obtain ⟨_, hiN, hjN, hz, _⟩ := get_next_cell_some b (br * bc) p i j hnc
      have := emptyCount_pos hiN hjN hz
      omega
  | succ n IH =>
    intro b p he hw hv hf hpre
    cases hnc : get_next_cell b (br * bc) p with
    | none => exact cnt_full_case hv hf hpre hnc
    | some pr =>
      obtain ⟨i, j⟩ := pr
      obtain ⟨hple, hiN, hjN, hz, hmin⟩ := get_next_cell_some b (br * bc) p i j hnc
      have hib : i < b.length := by rw [hw.1]; exact hiN
      have hjb : j < (b.getD i []).length := by rw [row_getD_of_WF hw hiN]; exact hjN
      rw [cnt_some hnc]
      have key : ∀ t v, 1 ≤ v → br * bc + 1 ≤ v + t →
          cntV br bc b i j v
            = ∑ k ∈ Finset.Ico v (br * bc + 1), (compSet br bc (bset b i j k)).card := by
        intro t
        induction t with
        | zero =>
          intro v hv1 hvt
          rw [cntV_of_ge (by omega), Finset.Ico_eq_empty (by omega), Finset.sum_empty]
        | succ t IHt =>
          intro v hv1 hvt
          by_cases hge : br * bc + 1 ≤ v
          · rw [cntV_of_ge hge, Finset.Ico_eq_empty (by omega), Finset.sum_empty]
          · rw [cntV_step hge,
              Finset.sum_eq_sum_Ico_succ_bot (by omega : v < br * bc + 1)]
            have htail := IHt (v + 1) (by omega) (by omega)
            rw [htail]
            congr 1
            by_cases hleg : is_legal_value b i j v br bc = true
            · rw [if_pos ⟨hleg, hiN, hjN, hib, hjb, hz, hv1⟩]
              have hemp : emptyCount (br * bc) (bset b i j v) ≤ n := by
                have hstep : emptyCount (br * bc) (bset b i j v) + 1
                    = emptyCount (br * bc) b :=
                  emptyCount_bset hiN hjN hib hjb hz (by omega)
                omega
              have hpre' : ∀ q, q < i * (br * bc) + j →
                  q < (br * bc) * (br * bc) →
                  bget (bset b i j v) (q / (br * bc)) (q % (br * bc)) ≠ 0 := by
                intro q hq1 hq2
                have hne := decode_ne_of_lt hjN hq1
                rw [bget_bset_ne b i j v _ _ (by tauto)]
                by_cases hqp : q < p
                · exact hpre q hqp hq2
                · exact hmin q (by omega) hq1
              rw [IH (bset b i j v) (i * (br * bc) + j) hemp (WF_bset hw i j v)
                (ValuesLE_bset hv (by omega)) (FilledLegal_bset hbr hbc hw hf hiN hjN hz hv1 hleg)
                hpre']
              rfl
            · rw [if_neg (by tauto)]
              have hconf : ∃ r' c', r' < br * bc ∧ c' < br * bc ∧
                  related br bc i j r' c' ∧ (i ≠ r' ∨ j ≠ c') ∧ bget b r' c' = v := by
                have h4 := hleg
                rw [is_legal_value_iff hbr hbc hiN hjN] at h4
                push_neg at h4
                obtain ⟨r', c', hr', hc', hrel, hval⟩ := h4
                refine ⟨r', c', hr', hc', hrel, ?_, hval⟩
                by_contra hco
                push_neg at hco
                rw [← hco.1, ← hco.2] at hval
                omega
              rw [compSet_eq_empty_of_conflict hw hiN hjN hz hv1 hconf, Finset.card_empty]
      rw [key (br * bc) 1 le_rfl (by omega), Finset.sum_Ico_eq_sum_range]
      unfold completionCount
      rw [compSet_partition hw hiN hjN hz]
      refine Finset.sum_congr (by norm_num) fun k _ => ?_
      rw [Nat.add_comm 1 k]

/-! ## Board write algebra -/

theorem list_set_getElem_self {α : Type _} (l : List α) (n : ℕ) (h : n < l.length) :
    l.set n l[n] = l := by
  apply List.ext_getElem
  · simp
  · intro k h1 h2
    rw [List.getElem_set]
    split_ifs with hk
    · subst hk; rfl
    · rfl

theorem bset_bset (b : Board) (i j x y : ℕ) :
    bset (bset b i j x) i j y = bset b i j y := by
  unfold bset
  by_cases hib : i < b.length
  · have h1 : (List.set b i ((b.getD i []).set j x)).getD i [] = (b.getD i []).set j x := by
      rw [getD_set, if_pos ⟨rfl, hib⟩]
    rw [h1, List.set_set, List.set_set]
  · have e1 : List.set b i ((b.getD i []).set j x) = b :=
      List.set_eq_of_length_le (by omega)
    rw [e1]

theorem bset_self (b : Board) (i j : ℕ) : bset b i j (bget b i j) = b := by
  unfold bset bget
  by_cases hib : i < b.length
  · have hrow : b.getD i [] = b[i] := getD_eq_getElem b i [] hib
    by_cases hjb : j < (b.getD i []).length
    · have e1 : (b.getD i []).set j ((b.getD i []).getD j 0) = b.getD i [] := by
        rw [getD_eq_getElem _ j 0 hjb]
        exact list_set_getElem_self _ j hjb
      rw [e1, hrow]
      exact list_set_getElem_self b i hib
    · have e1 : (b.getD i []).set j ((b.getD i []).getD j 0) = b.getD i [] :=
        List.set_eq_of_length_le (by omega)
      rw [e1, hrow]
      exact list_set_getElem_self b i hib
  · exact List.set_eq_of_length_le (by omega)

theorem bset_zero_eq_self {b : Board} {i j : ℕ} (hz : bget b i j = 0) :
    bset b i j 0 = b := by
  rw [← hz]
  exact bset_self b i j

/-! ## `backTrack` (Back_Tracking_Solver.c)

The iterative enumerator.  A stack frame `(pos?, value)` models the source's
`node` (`pos? = none` models the `(-1, -1)` sentinel cell).  `btStep` is one
iteration of the `while (!is_empty(board_updates))` loop: peek the head frame,
count a solution and pop on the sentinel, otherwise zero the cell, pop at
`num = N + 1`, and on a legal value write it, bump the head frame and push a
frame for the next empty cell.  `btRun` runs the loop on explicit fuel and
returns the final count and scratch board. -/

/-- State of the `backTrack` loop: stack, scratch board, `sum`. -/
structure BTState where
  stack : List (Option (ℕ × ℕ) × ℕ)
  board : Board
  sum : ℕ

/-- One iteration of the `backTrack` loop on a non-empty stack. -/
def btStep (br bc : ℕ) (fr : Option (ℕ × ℕ) × ℕ)
    (rest : List (Option (ℕ × ℕ) × ℕ)) (b : Board) (sum : ℕ) : BTState :=
  let N := br * bc
  match fr with
  | (none, _) => ⟨rest, b, sum + 1⟩
  | (some (i, j), num) =>
    let b0 := bset b i j 0
    if num = N + 1 then ⟨rest, b0, sum⟩
    else if is_legal_value b0 i j num br bc then
      let b1 := bset b0 i j num
      ⟨(get_next_cell b1 N (i * N + j), 1) :: (some (i, j), num + 1) :: rest, b1, sum⟩
    else ⟨(some (i, j), num + 1) :: rest, b0, sum⟩

/-- The `backTrack` loop, with fuel bounding the number of iterations. -/
def btRun (br bc : ℕ) : ℕ → BTState → Option (ℕ × Board)
  | 0, _ => none
  | fuel + 1, s =>
    match s.stack with
    | [] => some (s.sum, s.board)
    | fr :: rest => btRun br bc fuel (btStep br bc fr rest s.board s.sum)

/-- Embedding of `backTrack`: advance to the first empty cell if the corner is
filled, push the initial frame with value 1, and run the loop.  Returns the
solution count and the final scratch board. -/
def backTrack (br bc : ℕ) (fuel : ℕ) (b : Board) : Option (ℕ × Board) :=
  let N := br * bc
  let start := if bget b 0 0 ≠ 0 then get_next_cell b N 0 else some (0, 0)
  btRun br bc fuel ⟨[(start, 1)], b, 0⟩

theorem btRun_nil {br bc : ℕ} (fuel : ℕ) (b : Board) (sum : ℕ) :
    btRun br bc (fuel + 1) ⟨[], b, sum⟩ = some (sum, b) := rfl

theorem btRun_cons {br bc : ℕ} (fuel : ℕ) (fr : Option (ℕ × ℕ) × ℕ)
    (rest : List (Option (ℕ × ℕ) × ℕ)) (b : Board) (sum : ℕ) :
    btRun br bc (fuel + 1) ⟨fr :: rest, b, sum⟩
      = btRun br bc fuel (btStep br bc fr rest b sum) := rfl

theorem btStep_sentinel {br bc : ℕ} (v : ℕ) (rest : List (Option (ℕ × ℕ) × ℕ))
    (b : Board) (sum : ℕ) :
    btStep br bc (none, v) rest b sum = ⟨rest, b, sum + 1⟩ := rfl

theorem btStep_pop {br bc i j v : ℕ} {b : Board} (hv : v = br * bc + 1)
    (rest : List (Option (ℕ × ℕ) × ℕ)) (sum : ℕ) :
    btStep br bc (some (i, j), v) rest b sum = ⟨rest, bset b i j 0, sum⟩ := by
  simp only [btStep]
  rw [if_pos hv]

theorem btStep_legal {br bc i j v : ℕ} {b : Board} (hv : v ≠ br * bc + 1)
    (hleg : is_legal_value (bset b i j 0) i j v br bc = true)
    (rest : List (Option (ℕ × ℕ) × ℕ)) (sum : ℕ) :
    btStep br bc (some (i, j), v) rest b sum
      = ⟨(get_next_cell (bset (bset b i j 0) i j v) (br * bc) (i * (br * bc) + j), 1)
            :: (some (i, j), v + 1) :: rest,
          bset (bset b i j 0) i j v, sum⟩ := by
  simp only [btStep]
  rw [if_neg hv, if_pos hleg]

theorem btStep_illegal {br bc i j v : ℕ} {b : Board} (hv : v ≠ br * bc + 1)
    (hleg : ¬ is_legal_value (bset b i j 0) i j v br bc = true)
    (rest : List (Option (ℕ × ℕ) × ℕ)) (sum : ℕ) :
    btStep br bc (some (i, j), v) rest b sum
      = ⟨(some (i, j), v + 1) :: rest, bset b i j 0, sum⟩ := by
  simp only [btStep]
  rw [if_neg hv, if_neg hleg]

/-- Frame lemma for the loop: processing a stack frame `(some (i, j), v)` on a
board whose cell `(i, j)` may hold a leftover tried value `d` takes finitely
many iterations, after which the frame is popped, the scratch board is
restored to `b`, and the count of completions obtained by trying the values
`v, …, N` at `(i, j)` has been added to `sum`. -/
theorem btRun_frame {br bc : ℕ} (hbr : 0 < br) (hbc : 0 < bc) :
    ∀ n (b : Board), emptyCount (br * bc) b ≤ n → WF (br * bc) b →
      ValuesLE (br * bc) b → FilledLegal br bc b →
      ∀ i j, i < br * bc → j < br * bc → bget b i j = 0 →
      ∀ v, 1 ≤ v → v ≤ br * bc + 1 →
      ∀ d, ∃ k, ∀ fuel rest sum,
        btRun br bc (k + fuel) ⟨(some (i, j), v) :: rest, bset b i j d, sum⟩
          = btRun br bc fuel ⟨rest, b, sum + cntV br bc b i j v⟩ := by
  intro n
  induction n with
  | zero =>
    intro b he _ _ _ i j hiN hjN hz
    exact absurd (emptyCount_pos hiN hjN hz) (by omega)
  | succ n IH =>
    intro b he hw hvle hfl i j hiN hjN hz
    have hib : i < b.length := by rw [hw.1]; exact hiN
    have hjb : j < (b.getD i []).length := by rw [row_getD_of_WF hw hiN]; exact hjN
    have hb0 : bset b i j 0 = b := bset_zero_eq_self hz
    suffices inner : ∀ t v, 1 ≤ v → v ≤ br * bc + 1 → br * bc + 1 ≤ v + t →
        ∀ d, ∃ k, ∀ fuel rest sum,
          btRun br bc (k + fuel) ⟨(some (i, j), v) :: rest, bset b i j d, sum⟩
            = btRun br bc fuel ⟨rest, b, sum + cntV br bc b i j v⟩ by
      intro v hv1 hv2 d
      exact inner (br * bc + 1) v hv1 hv2 (by omega) d
    intro t
    induction t with
    | zero =>
      intro v hv1 hv2 hvt d
      have hveq : v = br * bc + 1 := by omega
      refine ⟨1, fun fuel rest sum => ?_⟩
      rw [Nat.add_comm 1 fuel, btRun_cons, btStep_pop hveq, bset_bset, hb0,
        cntV_of_ge (by omega), Nat.add_zero]
    | succ t IHt =>
      intro t_v hv1 hv2 hvt d
      by_cases hveq : t_v = br * bc + 1
      · refine ⟨1, fun fuel rest sum => ?_⟩
        rw [Nat.add_comm 1 fuel, btRun_cons, btStep_pop hveq, bset_bset, hb0,
          cntV_of_ge (by omega), Nat.add_zero]
      · by_cases hleg : is_legal_value b i j t_v br bc = true
        · -- a legal value: write it, push a frame for the next empty cell
          have hleg0 : is_legal_value (bset (bset b i j d) i j 0) i j t_v br bc = true := by
            rw [bset_bset, hb0]; exact hleg
          have hbv : bset (bset (bset b i j d) i j 0) i j t_v = bset b i j t_v := by
            rw [bset_bset, bset_bset]
          have hwv : WF (br * bc) (bset b i j t_v) := WF_bset hw i j t_v
          have hvlev : ValuesLE (br * bc) (bset b i j t_v) := ValuesLE_bset hvle (by omega)
          have hflv : FilledLegal br bc (bset b i j t_v) :=
            FilledLegal_bset hbr hbc hw hfl hiN hjN hz hv1 hleg
          have hempv : emptyCount (br * bc) (bset b i j t_v) ≤ n := by
            have hstep : emptyCount (br * bc) (bset b i j t_v) + 1
                = emptyCount (br * bc) b :=
              emptyCount_bset hiN hjN hib hjb hz (by omega)
            omega
          obtain ⟨k2, hk2⟩ := IHt (t_v + 1) (by omega) (by omega) (by omega) t_v
          have hcv : cntV br bc b i j t_v
              = cnt br bc (bset b i j t_v) (i * (br * bc) + j)
                + cntV br bc b i j (t_v + 1) := by
            rw [cntV_step (by omega), if_pos ⟨hleg, hiN, hjN, hib, hjb, hz, hv1⟩]
          cases hq : get_next_cell (bset b i j t_v) (br * bc) (i * (br * bc) + j) with
          | none =>
            refine ⟨1 + 1 + k2, fun fuel rest sum => ?_⟩
            rw [show 1 + 1 + k2 + fuel = ((k2 + fuel) + 1) + 1 from by omega,
              btRun_cons, btStep_legal hveq hleg0, hbv, hq, btRun_cons, btStep_sentinel,
              hk2 fuel rest (sum + 1)]
            have hsum : sum + 1 + cntV br bc b i j (t_v + 1)
                = sum + cntV br bc b i j t_v := by
              have hone := cnt_none hq
              omega
            rw [hsum]
          | some pr =>
            obtain ⟨i', j'⟩ := pr
            obtain ⟨_, hi'N, hj'N, hz', _⟩ :=
              get_next_cell_some (bset b i j t_v) (br * bc) (i * (br * bc) + j) i' j' hq
            have hself : bset (bset b i j t_v) i' j' 0 = bset b i j t_v :=
              bset_zero_eq_self hz'
            obtain ⟨k1, hk1⟩ := IH (bset b i j t_v) hempv hwv hvlev hflv i' j' hi'N hj'N hz'
              1 le_rfl (by omega) 0
            refine ⟨1 + k1 + k2, fun fuel rest sum => ?_⟩
            rw [show 1 + k1 + k2 + fuel = (k1 + (k2 + fuel)) + 1 from by omega,
              btRun_cons, btStep_legal hveq hleg0, hbv, hq]
            have hk1' := hk1 (k2 + fuel) ((some (i, j), t_v + 1) :: rest) sum
            rw [hself] at hk1'
            rw [hk1', hk2 fuel rest (sum + cntV br bc (bset b i j t_v) i' j' 1)]
            have hsum : sum + cntV br bc (bset b i j t_v) i' j' 1
                + cntV br bc b i j (t_v + 1) = sum + cntV br bc b i j t_v := by
              have hcs := cnt_some hq
              omega
            rw [hsum]
        · -- an illegal value: just bump the frame's value
          have hleg0 : ¬ is_legal_value (bset (bset b i j d) i j 0) i j t_v br bc = true := by
            rw [bset_bset, hb0]; exact hleg
          obtain ⟨k2, hk2⟩ := IHt (t_v + 1) (by omega) (by omega) (by omega) 0
          have hk20 := hk2
          refine ⟨1 + k2, fun fuel rest sum => ?_⟩
          rw [show 1 + k2 + fuel = (k2 + fuel) + 1 from by omega,
            btRun_cons, btStep_illegal hveq hleg0, bset_bset, hb0]
          have hk2' := hk20 fuel rest sum
          rw [hb0] at hk2'
          rw [hk2']
          have hsum : sum + cntV br bc b i j (t_v + 1) = sum + cntV br bc b i j t_v := by
            have hcv : cntV br bc b i j t_v
                = 0 + cntV br bc b i j (t_v + 1) := by
              rw [cntV_step (by omega), if_neg (by tauto)]
            omega
          rw [hsum]

/-- C2: On every board whose filled cells contain no row/column/block
duplicate (and whose entries are in range), `backTrack` terminates with the
output count equal to the number of complete assignments of `1..N` to the
empty cells satisfying the row, column and block uniqueness constraints, and
the scratch board it operated on is returned equal to its input state. -/
theorem backTrack_counts_completions_and_restores {br bc : ℕ} {b : Board}
    (hbr : 0 < br) (hbc : 0 < bc) (hw : WF (br * bc) b)
    (hvle : ValuesLE (br * bc) b) (hfl : FilledLegal br bc b) :
    ∃ fuel, backTrack br bc fuel b = some (completionCount br bc b, b) := by
  have hN : 0 < br * bc := Nat.mul_pos hbr hbc
  simp only [backTrack]
  have hstart : (if bget b 0 0 ≠ 0 then get_next_cell b (br * bc) 0 else some (0, 0))
      = get_next_cell b (br * bc) 0 := by
    by_cases h00 : bget b 0 0 = 0
    · rw [if_neg (by simpa using h00), get_next_cell, dif_pos (by nlinarith),
        Nat.zero_div, Nat.zero_mod, if_pos h00]
    · rw [if_pos h00]
  rw [hstart]
  cases hnc : get_next_cell b (br * bc) 0 with
  | none =>
    refine ⟨(0 + 1) + 1, ?_⟩
    rw [btRun_cons, btStep_sentinel, btRun_nil]
    have hfull := full_of_get_next_cell_none hnc (fun q hq _ => absurd hq (by omega))
    have hcard := compSet_card_of_full hvle hfl hfull
    unfold completionCount
    rw [hcard]
  | some pr =>
    obtain ⟨i, j⟩ := pr
    obtain ⟨_, hiN, hjN, hz, _⟩ := get_next_cell_some b (br * bc) 0 i j hnc
    obtain ⟨k, hk⟩ := btRun_frame hbr hbc (emptyCount (br * bc) b) b le_rfl hw hvle hfl
      i j hiN hjN hz 1 le_rfl (by omega) 0
    refine ⟨k + (0 + 1), ?_⟩
    have hfr := hk (0 + 1) [] 0
    rw [bset_zero_eq_self hz] at hfr
    rw [hfr, btRun_nil]
    have h1 : cnt br bc b 0 = cntV br bc b i j 1 := cnt_some hnc
    have h2 : cnt br bc b 0 = completionCount br bc b :=
      cnt_eq_card hbr hbc (emptyCount (br * bc) b) b 0 le_rfl hw hvle hfl
        (fun q hq _ => absurd hq (by omega))
    rw [Nat.zero_add, ← h1, h2]

/-- Witness for C2 at the concrete board `[[0]]` with 1×1 blocks. -/
theorem backTrack_counts_completions_and_restores_witness :
    ((0 : ℕ) < 1 ∧ WF (1 * 1) [[0]] ∧ ValuesLE (1 * 1) [[0]] ∧ FilledLegal 1 1 [[0]]) ∧
      ∃ fuel, backTrack 1 1 fuel [[0]] = some (completionCount 1 1 [[0]], [[0]]) :=
  ⟨⟨Nat.one_pos, by decide, by decide, by decide⟩,
    backTrack_counts_completions_and_restores Nat.one_pos Nat.one_pos
      (by decide) (by decide) (by decide)⟩

/-! # The game engine

Embeddings of `definitions_db.h`, `Moves_Linked_List.c`, `File_IO.c` and
`Game.c`.  The circular doubly-linked moves list with sentinel is modelled by
the list of moves in order together with a cursor index: `curr = 0` is the
sentinel ("before the first move") and `curr = k > 0` points at `moves[k-1]`.
`int` truthiness becomes `Bool`; `empty_cells_num` is kept as a (signed)
integer, as in the source. -/

/-- `GAME_MODE` of definitions_db.h. -/
inductive GAME_MODE
  | Init
  | Solve
  | Edit
deriving DecidableEq

/-- `change_node`: one per-cell change, value `z1` before and `z2` after. -/
structure change_node where
  cell_rows : ℕ
  cell_cols : ℕ
  z1 : ℕ
  z2 : ℕ
deriving DecidableEq

/-- `move_node`: the ordered list of changes of one user-perceived move. -/
structure move_node where
  changes : List change_node
deriving DecidableEq

/-- `moves_list`: moves in list order plus the cursor index. -/
structure moves_list where
  moves : List move_node
  curr : ℕ
deriving DecidableEq

/-- `init_moves_list`: only the sentinel, cursor on it. -/
def init_moves_list : moves_list := ⟨[], 0⟩

/-- `can_undo`: the cursor is not on the sentinel. -/
def can_undo (m : moves_list) : Bool := m.curr != 0

/-- `can_redo`: the node after the cursor is not the sentinel. -/
def can_redo (m : moves_list) : Bool := decide (m.curr < m.moves.length)

/-- `add_change_to_move`: append a change at the tail of the move's list. -/
def add_change_to_move (mv : move_node) (cell_rows cell_cols z1 z2 : ℕ) : move_node :=
  ⟨mv.changes ++ [⟨cell_rows, cell_cols, z1, z2⟩]⟩

/-- `add_move_node_to_list`: delete every move after the cursor, splice the
new move in after the cursor, and advance the cursor to it. -/
def add_move_node_to_list (m : moves_list) (mv : move_node) : moves_list :=
  ⟨m.moves.take m.curr ++ [mv], m.curr + 1⟩

/-- `inc_curr_pointer`. -/
def inc_curr_pointer (m : moves_list) : moves_list := ⟨m.moves, m.curr + 1⟩

/-- `dec_curr_pointer`. -/
def dec_curr_pointer (m : moves_list) : moves_list := ⟨m.moves, m.curr - 1⟩

/-- `get_curr_pointer_changes_iter`: the changes of the move under the cursor
(the sentinel's changes list is empty). -/
def get_curr_pointer_changes_iter (m : moves_list) : List change_node :=
  if m.curr = 0 then [] else (m.moves.getD (m.curr - 1) ⟨[]⟩).changes

/-- A boolean `N × N` table (the `err` and `fixed` tables). -/
abbrev BTable := List (List Bool)

/-- Read a boolean table cell; out-of-range reads default to `false`. -/
def tget (t : BTable) (i j : ℕ) : Bool := (t.getD i []).getD j false

/-- `game_board` of definitions_db.h. -/
structure game_board where
  board : Board
  err : BTable
  fixed : BTable
  block_cols : ℕ
  block_rows : ℕ
  N : ℕ
  empty_cells_num : ℤ
deriving DecidableEq

/-- `game_state` of definitions_db.h. -/
structure game_state where
  mode : GAME_MODE
  mark_errors : Bool
  m_list : moves_list
  g_board : game_board
  valid : Bool
deriving DecidableEq

/-- User-visible outputs of the commands (the `printf` calls of Game.c). -/
inductive Msg
  | printBoard
  | errCellFixed
  | errNoUndo
  | errNoRedo
  | errErroneousBoard
  | errEmptyCellsTooLow
  | errGeneratorFailed
  | errCellFilled
  | errUnsolvable
  | puzzleSolved
  | solutionErroneous
  | validationPassed
  | validationFailed
  | undoChange (col row z1 z2 : ℕ)
  | redoChange (col row z1 z2 : ℕ)
  | cellSet (col row v : ℕ)
  | hintValue (v : ℕ)
  | guessHintScores
  | numSolutionsIs (n : Option ℕ)
deriving DecidableEq

/-! ## Board-invariant layer commands (Game.c) -/

/-- One cell's conflict test inside `update_erroneous`: the filled cell is
temporarily nulled and its value tested with `is_legal_value`. -/
def erroneous_cell (g : game_board) (i j : ℕ) : Bool :=
  let temp := bget g.board i j
  temp != 0 &&
    !(is_legal_value (bset g.board i j 0) i j temp g.block_rows g.block_cols)

/-- Embedding of `update_erroneous` (Game.c): recompute the `err` table
(`err[i][j]` set iff the filled cell conflicts and is not fixed) and report
whether any filled cell, fixed or not, conflicts. -/
def update_erroneous (g : game_board) : BTable × Bool :=
  ((List.range g.N).map fun i => (List.range g.N).map fun j =>
      erroneous_cell g i j && !(tget g.fixed i j),
   (List.range g.N).any fun i => (List.range g.N).any fun j => erroneous_cell g i j)

/-- Embedding of `print_board` (Game.c): errors are marked iff `mark_errors`
is set in Solve mode (always outside Solve); marking refreshes `err`. -/
def print_board (s : game_state) : game_state × List Msg :=
  let eff := match s.mode with
    | GAME_MODE.Solve => s.mark_errors
    | _ => true
  if eff then
    ({s with g_board := {s.g_board with err := (update_erroneous s.g_board).1}},
      [Msg.printBoard])
  else (s, [Msg.printBoard])

def boolInt (b : Bool) : ℤ := if b then 1 else 0

/-- Embedding of `set_cell` (Game.c): record the one-change move `(z1, z2)` in
the history, write the cell and adjust `empty_cells_num`. -/
def set_cell (s : game_state) (cell_rows cell_cols z2 : ℕ) : game_state :=
  let z1 := bget s.g_board.board cell_rows cell_cols
  let m_node := add_change_to_move ⟨[]⟩ cell_rows cell_cols z1 z2
  { s with
    m_list := add_move_node_to_list s.m_list m_node,
    g_board := { s.g_board with
      board := bset s.g_board.board cell_rows cell_cols z2,
      empty_cells_num :=
        s.g_board.empty_cells_num - (boolInt (z2 != 0) - boolInt (z1 != 0)) } }

/-! ## The modelled ILP back-end

`solve_board_with_ILP` (ILP_Solver.c) drives the external Gurobi optimizer
and is modelled from the spec (§4.4): binary variables `X[i,j,k]` under
exactly-one cell/row/column/block constraints with the clues clamped; on an
optimal solution the solved values are written into the board, on
infeasibility the board is unchanged.  The model searches the finite space of
full boards for a completion of the input. -/

/-- All value vectors of the given length with entries `1..N`, lexicographic. -/
def allVecs (N : ℕ) : ℕ → List (List ℕ)
  | 0 => [[]]
  | len + 1 => (allVecs N len).flatMap fun r => (List.range N).map fun k => r ++ [k + 1]

/-- All tables of `n` rows drawn from `rows`. -/
def allTables (rows : List (List ℕ)) : ℕ → List Board
  | 0 => [[]]
  | n + 1 => (allTables rows n).flatMap fun t => rows.map fun r => t ++ [r]

/-- All full `N × N` boards with entries `1..N`. -/
def allFullBoards (N : ℕ) : List Board := allTables (allVecs N N) N

/-- `c` is a full legal board agreeing with the filled cells of `b`. -/
def isCompletionOf (br bc : ℕ) (b c : Board) : Bool :=
  decide (WF (br * bc) c)
  && ((List.range (br * bc)).all fun i => (List.range (br * bc)).all fun j =>
        (1 ≤ bget c i j && bget c i j ≤ br * bc)
        && (bget b i j == 0 || bget c i j == bget b i j))
  && decide (FilledLegal br bc c)

/-- Modelled from the spec: `solve_board_with_ILP` (ILP_Solver.c / external
Gurobi optimizer) — returns the completed board on a feasible model and
`none` (board unchanged) when the board is unsolvable. -/
def solve_board_with_ILP (b : Board) (block_rows block_cols : ℕ) : Option Board :=
  (allFullBoards (block_rows * block_cols)).find? fun c =>
    isCompletionOf block_rows block_cols b c

/-- Embedding of `is_valid_board` (Game.c): run the ILP back-end on a scratch
copy of the board and report solvability; the game board is untouched. -/
def is_valid_board (s : game_state) : Bool :=
  (solve_board_with_ILP s.g_board.board s.g_board.block_rows s.g_board.block_cols).isSome

/-- Embedding of `free_game` (Game.c): release the history, mark the game
state invalid and return to Init mode (the freed tables are left in place;
`valid = false` marks them dead). -/
def free_game (s : game_state) : game_state :=
  { s with mode := GAME_MODE.Init, valid := false, m_list := init_moves_list }

/-- Embedding of `set` (Game.c): refuse a fixed cell, otherwise set the cell,
print the board, and in Solve mode on a now-full board run the ILP
completion check — solvable frees the game, unsolvable reports an erroneous
solution. -/
def set (s : game_state) (x y z : ℕ) : game_state × List Msg :=
  let cell_rows := y - 1
  let cell_cols := x - 1
  if tget s.g_board.fixed cell_rows cell_cols then (s, [Msg.errCellFixed])
  else
    let s1 := set_cell s cell_rows cell_cols z
    let pm := print_board s1
    if pm.1.mode = GAME_MODE.Solve ∧ pm.1.g_board.empty_cells_num = 0 then
      if is_valid_board pm.1 then (free_game pm.1, pm.2 ++ [Msg.puzzleSolved])
      else (pm.1, pm.2 ++ [Msg.solutionErroneous])
    else pm

/-- Embedding of `validate` (Game.c). -/
def validate (s : game_state) : game_state × List Msg :=
  let ue := update_erroneous s.g_board
  let s1 := {s with g_board := {s.g_board with err := ue.1}}
  if ue.2 then (s1, [Msg.errErroneousBoard])
  else if is_valid_board s1 then (s1, [Msg.validationPassed])
  else (s1, [Msg.validationFailed])

/-- Embedding of `change_cell` (Game.c), used by undo/redo/reset/autofill. -/
def change_cell (s : game_state) (cell_rows cell_cols z_from z_to : ℕ) : game_state :=
  { s with g_board := { s.g_board with
      board := bset s.g_board.board cell_rows cell_cols z_to,
      empty_cells_num :=
        s.g_board.empty_cells_num - (boolInt (z_to != 0) - boolInt (z_from != 0)) } }

/-- Embedding of `undo` (Game.c): revert the cursor move's changes, print the
board and the change report, then decrement the cursor. -/
def undo (s : game_state) : game_state × List Msg :=
  if ¬ can_undo s.m_list then (s, [Msg.errNoUndo])
  else
    let cs := get_curr_pointer_changes_iter s.m_list
    let s1 := cs.foldl
      (fun st ch => change_cell st ch.cell_rows ch.cell_cols ch.z2 ch.z1) s
    let pm := print_board s1
    let msgs := cs.map fun ch =>
      Msg.undoChange (ch.cell_cols + 1) (ch.cell_rows + 1) ch.z1 ch.z2
    ({pm.1 with m_list := dec_curr_pointer pm.1.m_list}, pm.2 ++ msgs)

/-- Embedding of `redo` (Game.c): increment the cursor, apply the now-current
move's changes, print the board and the change report.  (No completion check
is performed.) -/
def redo (s : game_state) : game_state × List Msg :=
  if ¬ can_redo s.m_list then (s, [Msg.errNoRedo])
  else
    let ml := inc_curr_pointer s.m_list
    let cs := get_curr_pointer_changes_iter ml
    let s1 := cs.foldl
      (fun st ch => change_cell st ch.cell_rows ch.cell_cols ch.z1 ch.z2)
      {s with m_list := ml}
    let pm := print_board s1
    let msgs := cs.map fun ch =>
      Msg.redoChange (ch.cell_cols + 1) (ch.cell_rows + 1) ch.z1 ch.z2
    (pm.1, pm.2 ++ msgs)

theorem foldl_preserves_m_list (cs : List change_node)
    (f : game_state → change_node → game_state)
    (hf : ∀ st ch, (f st ch).m_list = st.m_list) :
    ∀ s : game_state, (cs.foldl f s).m_list = s.m_list := by
  induction cs with
  | nil => intro s; rfl
  | cons ch cs IH =>
    intro s
    rw [List.foldl_cons, IH, hf]

/-- Embedding of `reset` (Game.c): while a move can be undone, revert all its
changes and decrement the cursor.  (`change_cell` never touches the moves
list, so decrementing the original list's cursor is the source's behavior.) -/
def reset_loop (s : game_state) : game_state :=
  if h : can_undo s.m_list then
    let cs := get_curr_pointer_changes_iter s.m_list
    reset_loop
      {cs.foldl (fun st ch => change_cell st ch.cell_rows ch.cell_cols ch.z2 ch.z1) s
        with m_list := dec_curr_pointer s.m_list}
  else s
termination_by s.m_list.curr
decreasing_by
  show s.m_list.curr - 1 < s.m_list.curr
  simp only [can_undo, bne_iff_ne, ne_eq] at h
  omega

/-- `reset` prints the board once the loop is done. -/
def reset (s : game_state) : game_state × List Msg := print_board (reset_loop s)

/-- Embedding of `find_all_legal_values` (Game.c): the values `1..N` legal at
the cell after temporarily nulling it. -/
def find_all_legal_values (board : Board) (cell_rows cell_cols block_rows block_cols : ℕ) :
    List ℕ :=
  ((List.range (block_rows * block_cols)).map (· + 1)).filter fun val =>
    is_legal_value (bset board cell_rows cell_cols 0) cell_rows cell_cols val
      block_rows block_cols

/-- All cells of the `N × N` grid in row-major order. -/
def allCells (N : ℕ) : List (ℕ × ℕ) :=
  (List.range N).flatMap fun i => (List.range N).map fun j => (i, j)

/-- One cell's step of the `autofill` fill loop (Game.c): against the
pre-autofill snapshot, fill the cell when it is empty with exactly one legal
value, accumulating the change and its report. -/
def autofill_step (old_board : Board) (block_rows block_cols : ℕ)
    (acc : game_state × move_node × List Msg) (rc : ℕ × ℕ) :
    game_state × move_node × List Msg :=
  let cr := rc.1
  let cc := rc.2
  if bget old_board cr cc = 0 then
    let lv := find_all_legal_values old_board cr cc block_rows block_cols
    if lv.length = 1 then
      (change_cell acc.1 cr cc 0 (lv.getD 0 0),
       add_change_to_move acc.2.1 cr cc 0 (lv.getD 0 0),
       acc.2.2 ++ [Msg.cellSet (cc + 1) (cr + 1) (lv.getD 0 0)])
    else acc
  else acc

/-- Embedding of `autofill` (Game.c): refuse an erroneous board; otherwise
fill every empty cell having exactly one legal value, record the changes as
one move (appended only if non-empty), print, and if no empty cells remain
run the ILP completion check. -/
def autofill (s : game_state) : game_state × List Msg :=
  let ue := update_erroneous s.g_board
  let s0 := {s with g_board := {s.g_board with err := ue.1}}
  if ue.2 then (s0, [Msg.errErroneousBoard])
  else
    let old_board := s0.g_board.board
    let fill := (allCells s0.g_board.N).foldl
      (autofill_step old_board s0.g_board.block_rows s0.g_board.block_cols)
      (s0, ⟨[]⟩, [])
    let s2 := if fill.2.1.changes ≠ [] then
        {fill.1 with m_list := add_move_node_to_list fill.1.m_list fill.2.1}
      else fill.1
    let pm := print_board s2
    if pm.1.g_board.empty_cells_num = 0 then
      if is_valid_board pm.1 then
        (free_game pm.1, fill.2.2 ++ pm.2 ++ [Msg.puzzleSolved])
      else (pm.1, fill.2.2 ++ pm.2 ++ [Msg.solutionErroneous])
    else (pm.1, fill.2.2 ++ pm.2)

/-- Embedding of `hint` (Game.c): erroneous/fixed/filled gates, then the ILP
back-end on a scratch copy; the hint is the solved value of the cell. -/
def hint (s : game_state) (x y : ℕ) : game_state × List Msg :=
  let cell_rows := y - 1
  let cell_cols := x - 1
  let ue := update_erroneous s.g_board
  let s1 := {s with g_board := {s.g_board with err := ue.1}}
  if ue.2 then (s1, [Msg.errErroneousBoard])
  else if tget s1.g_board.fixed cell_rows cell_cols then (s1, [Msg.errCellFixed])
  else if bget s1.g_board.board cell_rows cell_cols ≠ 0 then (s1, [Msg.errCellFilled])
  else
    match solve_board_with_ILP s1.g_board.board s1.g_board.block_rows
        s1.g_board.block_cols with
    | some sol => (s1, [Msg.hintValue (bget sol cell_rows cell_cols)])
    | none => (s1, [Msg.errUnsolvable])

/-- Embedding of `guess_hint` (Game.c): same gates, then the LP relaxation on
a scratch copy.  The external LP status and score output are parameters. -/
def guess_hint (s : game_state) (x y : ℕ) (lp_solvable : Bool) : game_state × List Msg :=
  let cell_rows := y - 1
  let cell_cols := x - 1
  let ue := update_erroneous s.g_board
  let s1 := {s with g_board := {s.g_board with err := ue.1}}
  if ue.2 then (s1, [Msg.errErroneousBoard])
  else if tget s1.g_board.fixed cell_rows cell_cols then (s1, [Msg.errCellFixed])
  else if bget s1.g_board.board cell_rows cell_cols ≠ 0 then (s1, [Msg.errCellFilled])
  else if lp_solvable then (s1, [Msg.guessHintScores])
  else (s1, [Msg.errUnsolvable])

/-- Embedding of `num_solutions` (Game.c): refuse an erroneous board,
otherwise run `backTrack` on a scratch copy and report the count (`fuel`
models the finitely many iterations of the loop's actual run). -/
def num_solutions (s : game_state) (fuel : ℕ) : game_state × List Msg :=
  let ue := update_erroneous s.g_board
  let s1 := {s with g_board := {s.g_board with err := ue.1}}
  if ue.2 then (s1, [Msg.errErroneousBoard])
  else
    (s1, [Msg.numSolutionsIs
      ((backTrack s1.g_board.block_rows s1.g_board.block_cols fuel
        s1.g_board.board).map Prod.fst)])

/-! ## The generator (Game.c)

The C generator draws from the process-wide `rand()` stream; the stream is
modelled as a list of naturals consumed left to right. -/

/-- One `rand()` draw from the modelled stream. -/
def rand_draw (rng : List ℕ) : ℕ × List ℕ := (rng.headD 0, rng.tail)

/-- Embedding of `randomly_extract_a_cell` (Game.c): pick a random index
below `len`, return that cell, move the last live cell into its slot, and
shrink the live length by one. -/
def randomly_extract_a_cell (cells_list : List (ℕ × ℕ)) (len : ℕ) (rng : List ℕ) :
    (ℕ × ℕ) × List (ℕ × ℕ) × ℕ × List ℕ :=
  let d := rand_draw rng
  let chosen_indx := d.1 % len
  let cell := cells_list.getD chosen_indx (0, 0)
  let cells' := if chosen_indx < len - 1 then
      cells_list.set chosen_indx (cells_list.getD (len - 1) (0, 0))
    else cells_list
  (cell, cells', len - 1, d.2)

/-- The `while (x)` loop of `randomly_fill_a_legal_board`: extract a random
cell, compute its legal values, fail (`FILL_FAIL`, carrying the advanced
stream) if there are none, otherwise set a random one and continue. -/
def randomly_fill_loop (block_rows block_cols : ℕ) :
    Board → List (ℕ × ℕ) → ℕ → ℕ → List ℕ → Except (List ℕ) (Board × List ℕ)
  | board, _, _, 0, rng => Except.ok (board, rng)
  | board, cells_list, len, x + 1, rng =>
    let ex := randomly_extract_a_cell cells_list len rng
    let cell := ex.1
    let lv := find_all_legal_values board cell.1 cell.2 block_rows block_cols
    if lv.length = 0 then Except.error ex.2.2.2
    else
      let d := rand_draw ex.2.2.2
      let val := lv.getD (d.1 % lv.length) 0
      randomly_fill_loop block_rows block_cols (bset board cell.1 cell.2 val)
        ex.2.1 ex.2.2.1 x d.2

/-- Embedding of `randomly_fill_a_legal_board` (Game.c): nothing to do when
`x = 0`; otherwise run the fill loop over the pool of all cells. -/
def randomly_fill_a_legal_board (board : Board) (x block_rows block_cols : ℕ)
    (rng : List ℕ) : Except (List ℕ) (Board × List ℕ) :=
  let N := block_rows * block_cols
  if x = 0 then Except.ok (board, rng)
  else randomly_fill_loop block_rows block_cols board (allCells N) (N * N) x rng

/-- Embedding of `randomly_generate_board` (Game.c): up to the given number
of tries, plant `x` random legal values on (a restored copy of) the original
board and run the ILP back-end; succeed with the solved board. -/
def randomly_generate_board (old_board : Board) (x block_rows block_cols : ℕ) :
    ℕ → List ℕ → Option (Board × List ℕ)
  | 0, _ => none
  | tries + 1, rng =>
    match randomly_fill_a_legal_board old_board x block_rows block_cols rng with
    | Except.error rng' => randomly_generate_board old_board x block_rows block_cols tries rng'
    | Except.ok br =>
      match solve_board_with_ILP br.1 block_rows block_cols with
      | some solved => some (solved, br.2)
      | none => randomly_generate_board old_board x block_rows block_cols tries br.2

/-- The keep-`y`-cells loop of the clearing pass. -/
def keep_cells_loop : List (ℕ × ℕ) → ℕ → ℕ → List ℕ → List (ℕ × ℕ) × ℕ × List ℕ
  | cells, len, 0, rng => (cells, len, rng)
  | cells, len, y + 1, rng =>
    let ex := randomly_extract_a_cell cells len rng
    keep_cells_loop ex.2.1 ex.2.2.1 y ex.2.2.2

/-- Embedding of `partially_clear_board` (Game.c, name adjusted): choose `y`
random cells to keep and zero every cell left in the live prefix of the
pool. -/
def clear_board_keep_y (board : Board) (y N : ℕ) (rng : List ℕ) : Board × List ℕ :=
  if y = N * N then (board, rng)
  else
    let kl := keep_cells_loop (allCells N) (N * N) y rng
    (((kl.1.take (N * N - y)).foldl (fun b rc => bset b rc.1 rc.2 0) board), kl.2.2)

/-- The move-packaging loop of `generate`: one change for every cell that is
filled after the command or was filled before it. -/
def generate_move (old_board new_board : Board) (N : ℕ) : move_node :=
  ⟨(List.range N).flatMap fun cell_rows => (List.range N).filterMap fun cell_cols =>
      if bget new_board cell_rows cell_cols ≠ 0 ∨ bget old_board cell_rows cell_cols ≠ 0 then
        some ⟨cell_rows, cell_cols, bget old_board cell_rows cell_cols,
          bget new_board cell_rows cell_cols⟩
      else none⟩

/-- Embedding of `generate` (Game.c): check the empty-cell budget, generate a
solved board (1000 tries), clear down to `y` kept cells, package the
differing-or-filled cells as one move (appended only when `y > 0`), print,
and set `empty_cells_num = N² - y`. -/
def generate (s : game_state) (x y : ℕ) (rng : List ℕ) : game_state × List Msg :=
  let N := s.g_board.N
  if s.g_board.empty_cells_num < (x : ℤ) then (s, [Msg.errEmptyCellsTooLow])
  else
    let old_board := s.g_board.board
    match randomly_generate_board old_board x s.g_board.block_rows
        s.g_board.block_cols 1000 rng with
    | none => (s, [Msg.errGeneratorFailed])
    | some gen =>
      let cb := clear_board_keep_y gen.1 y N gen.2
      let mv := generate_move old_board cb.1 N
      let s1 := {s with g_board := {s.g_board with board := cb.1}}
      let s2 := if 0 < y then {s1 with m_list := add_move_node_to_list s1.m_list mv}
        else s1
      let pm := print_board s2
      ({pm.1 with g_board := {pm.1.g_board with
          empty_cells_num := (N * N : ℤ) - (y : ℤ)}}, pm.2)

/-! ## The guess engine (Game.c)

LP scores are C doubles; they are modelled as rationals.  The
floating-point weighted sampler `random_value` (qsort / modf arithmetic) is
abstracted as an oracle parameter `rv`. -/

/-- Embedding of `random_guess` (Game.c): per cell, collect the candidate
values whose score reaches the threshold and are legal on the current board;
fill the cell directly when exactly one candidate has positive score, and
through the sampler when several candidates exist. -/
def random_guess (board : Board) (block_rows block_cols : ℕ) (sol : List ℚ) (x : ℚ)
    (rv : List ℚ → List ℚ → ℕ) : Board :=
  let N := block_cols * block_rows
  (allCells N).foldl
    (fun b ij =>
      let i := ij.1
      let j := ij.2
      let cand := fun k => sol.getD (i * N * N + j * N + k) 0 ≥ x ∧ bget b i j = 0 ∧
        is_legal_value b i j (k + 1) block_rows block_cols = true
      let tmp := (List.range N).map fun k =>
        if cand k then sol.getD (i * N * N + j * N + k) 0 else 0
      let p_tmp := (List.range N).map fun k =>
        if cand k then sol.getD (i * N * N + j * N + k) 0 + (k : ℚ) else 0
      let cnt := ((List.range N).filter fun k => decide (cand k)).length
      if cnt = 0 then b
      else if cnt = 1 then
        (List.range N).foldl (fun b' k => if 0 < tmp.getD k 0 then bset b' i j (k + 1) else b') b
      else bset b i j (rv tmp p_tmp))
    board

/-- The move-packaging loop of `guess`: one change for every cell empty
before and filled after. -/
def guess_move (old_board new_board : Board) (N : ℕ) : move_node :=
  ⟨(List.range N).flatMap fun cell_rows => (List.range N).filterMap fun cell_cols =>
      if bget old_board cell_rows cell_cols = 0 ∧ bget new_board cell_rows cell_cols ≠ 0 then
        some ⟨cell_rows, cell_cols, bget old_board cell_rows cell_cols,
          bget new_board cell_rows cell_cols⟩
      else none⟩

/-- Embedding of `guess` (Game.c): snapshot the board, refuse an erroneous
board, run the LP on a scratch copy (its score array `sol` is the external
optimizer's output, a parameter here), fill cells with `random_guess`
directly on the game board, print, and append the newly-filled cells as one
move.  `empty_cells_num` is never adjusted. -/
def guess (s : game_state) (x : ℚ) (sol : List ℚ)
    (rv : List ℚ → List ℚ → ℕ) : game_state × List Msg :=
  let old_board := s.g_board.board
  let ue := update_erroneous s.g_board
  let s1 := {s with g_board := {s.g_board with err := ue.1}}
  if ue.2 then (s1, [Msg.errErroneousBoard])
  else
    let s2 := {s1 with g_board := {s1.g_board with
      board := random_guess s1.g_board.board s1.g_board.block_rows
        s1.g_board.block_cols sol x rv}}
    let pm := print_board s2
    let mv := guess_move old_board pm.1.g_board.board s.g_board.N
    ({pm.1 with m_list := add_move_node_to_list pm.1.m_list mv}, pm.2)

/-! ## `load_game` (File_IO.c) -/

/-- The token stream of a puzzle file: block dimensions, then the cell
tokens in row-major order (value, and whether a `.` clue mark follows). -/
structure load_input where
  block_rows : ℕ
  block_cols : ℕ
  cells : List (ℕ × Bool)

/-- Embedding of `load_game` (File_IO.c): build the `N × N` tables from the
token stream; a cell is fixed iff `set_fixed` is on and its token carries the
`.` mark; `empty_cells_num` counts the zero cells read. -/
def load_game (inp : load_input) (set_fixed : Bool) : game_board :=
  let N := inp.block_rows * inp.block_cols
  { board := (List.range N).map fun i => (List.range N).map fun j =>
      (inp.cells.getD (i * N + j) (0, false)).1,
    err := (List.range N).map fun _ => (List.range N).map fun _ => false,
    fixed := (List.range N).map fun i => (List.range N).map fun j =>
      set_fixed && (inp.cells.getD (i * N + j) (0, false)).2,
    block_cols := inp.block_cols,
    block_rows := inp.block_rows,
    N := N,
    empty_cells_num :=
      (((List.range (N * N)).filter fun q => (inp.cells.getD q (0, false)).1 = 0).length : ℤ) }

/-! # Claim theorems -/

theorem tget_map_table (N : ℕ) (f : ℕ → ℕ → Bool) (i j : ℕ) (hi : i < N) (hj : j < N) :
    tget ((List.range N).map fun i => (List.range N).map fun j => f i j) i j = f i j := by
  unfold tget
  rw [getD_eq_getElem _ i [] (by simpa using hi), List.getElem_map,
    getD_eq_getElem _ j false (by simpa using hj), List.getElem_map]
  simp [List.getElem_range]

/-- C10: `validate`, `hint`, `guess_hint` and `num_solutions` operate on
scratch copies: whatever the solver or gate outcome, the resulting game state
is the input state with only the `errors` table recomputed — board, fixed
table, `empty_cells_num`, mode, history and validity are untouched. -/
theorem solver_queries_leave_state_unchanged :
    (∀ s : game_state, (validate s).1
        = {s with g_board := {s.g_board with err := (update_erroneous s.g_board).1}})
    ∧ (∀ (s : game_state) (x y : ℕ), (hint s x y).1
        = {s with g_board := {s.g_board with err := (update_erroneous s.g_board).1}})
    ∧ (∀ (s : game_state) (x y : ℕ) (lp : Bool), (guess_hint s x y lp).1
        = {s with g_board := {s.g_board with err := (update_erroneous s.g_board).1}})
    ∧ (∀ (s : game_state) (fuel : ℕ), (num_solutions s fuel).1
        = {s with g_board := {s.g_board with err := (update_erroneous s.g_board).1}}) := by
  refine ⟨fun s => ?_, fun s x y => ?_, fun s x y lp => ?_, fun s fuel => ?_⟩
  · unfold validate
    dsimp only
    split_ifs <;> rfl
  · unfold hint
    dsimp only
    split_ifs <;> try rfl
    split <;> rfl
  · unfold guess_hint
    dsimp only
    split_ifs <;> rfl
  · unfold num_solutions
    dsimp only
    split_ifs <;> rfl

/-- C8: after `update_erroneous`, the error table flags exactly the filled,
non-fixed cells whose value occurs at another related cell, and the returned
flag says whether any filled cell (fixed or not) has such a conflict. -/
theorem update_erroneous_characterization (g : game_board)
    (hN : g.N = g.block_rows * g.block_cols)
    (hbr : 0 < g.block_rows) (hbc : 0 < g.block_cols)
    (hw : WF g.N g.board) :
    (∀ i j, i < g.N → j < g.N →
      (tget (update_erroneous g).1 i j = true ↔
        bget g.board i j ≠ 0 ∧ tget g.fixed i j = false ∧
          ∃ r' c', r' < g.N ∧ c' < g.N ∧ (r' ≠ i ∨ c' ≠ j) ∧
            related g.block_rows g.block_cols i j r' c' ∧
            bget g.board r' c' = bget g.board i j))
    ∧ ((update_erroneous g).2 = true ↔
        ∃ i j, i < g.N ∧ j < g.N ∧ bget g.board i j ≠ 0 ∧
          ∃ r' c', r' < g.N ∧ c' < g.N ∧ (r' ≠ i ∨ c' ≠ j) ∧
            related g.block_rows g.block_cols i j r' c' ∧
            bget g.board r' c' = bget g.board i j) := by
  have hib : ∀ i, i < g.N → i < g.board.length := by
    intro i hi
    rw [hw.1]; exact hi
  have hjb : ∀ i j, i < g.N → j < g.N → j < (g.board.getD i []).length := by
    intro i j hi hj
    rw [row_getD_of_WF hw hi]; exact hj
  have hcell : ∀ i j, i < g.N → j < g.N →
      (erroneous_cell g i j = true ↔
        bget g.board i j ≠ 0 ∧
          ∃ r' c', r' < g.N ∧ c' < g.N ∧ (r' ≠ i ∨ c' ≠ j) ∧
            related g.block_rows g.block_cols i j r' c' ∧
            bget g.board r' c' = bget g.board i j) := by
    intro i j hi hj
    unfold erroneous_cell
    simp only [Bool.and_eq_true, bne_iff_ne, ne_eq, Bool.not_eq_true']
    constructor
    · rintro ⟨hfill, hill⟩
      refine ⟨hfill, ?_⟩
      have hnot : ¬ (is_legal_value (bset g.board i j 0) i j (bget g.board i j)
          g.block_rows g.block_cols = true) := by
        rw [hill]; simp
      rw [is_legal_value_iff hbr hbc (hN ▸ hi) (hN ▸ hj)] at hnot
      push_neg at hnot
      obtain ⟨r', c', hr', hc', hrel, hval⟩ := hnot
      have hne : r' ≠ i ∨ c' ≠ j := by
        by_contra hco
        push_neg at hco
        rw [hco.1, hco.2, bget_bset_same g.board i j 0 (hib i hi) (hjb i j hi hj)] at hval
        exact hfill hval.symm
      refine ⟨r', c', hN ▸ hr', hN ▸ hc', hne, hrel, ?_⟩
      rwa [bget_bset_ne g.board i j 0 r' c' (by tauto)] at hval
    · rintro ⟨hfill, r', c', hr', hc', hne, hrel, hval⟩
      refine ⟨hfill, ?_⟩
      rw [Bool.eq_false_iff, ne_eq, is_legal_value_iff hbr hbc (hN ▸ hi) (hN ▸ hj)]
      push_neg
      refine ⟨r', c', hN ▸ hr', hN ▸ hc', hrel, ?_⟩
      rwa [bget_bset_ne g.board i j 0 r' c' (by tauto)]
  constructor
  · intro i j hi hj
    unfold update_erroneous
    rw [tget_map_table g.N _ i j hi hj]
    simp only [Bool.and_eq_true, Bool.not_eq_true']
    rw [hcell i j hi hj]
    constructor
    · rintro ⟨⟨hfill, hex⟩, hfix⟩
      exact ⟨hfill, hfix, hex⟩
    · rintro ⟨hfill, hfix, hex⟩
      exact ⟨⟨hfill, hex⟩, hfix⟩
  · unfold update_erroneous
    simp only [List.any_eq_true, List.mem_range]
    constructor
    · rintro ⟨i, hi, j, hj, hc⟩
      obtain ⟨hfill, rest⟩ := (hcell i j hi hj).mp hc
      exact ⟨i, j, hi, hj, hfill, rest⟩
    · rintro ⟨i, j, hi, hj, hfill, rest⟩
      exact ⟨i, hi, j, hj, (hcell i j hi hj).mpr ⟨hfill, rest⟩⟩

/-- Witness for C8 on a 2×2 board (blocks 1×2) with a row conflict. -/
theorem update_erroneous_characterization_witness :
    ((⟨[[1, 1], [0, 0]], [[false, false], [false, false]],
        [[false, false], [false, false]], 2, 1, 2, 2⟩ : game_board).N
          = (1 : ℕ) * 2 ∧ (0 : ℕ) < 1 ∧ (0 : ℕ) < 2 ∧
      WF 2 [[1, 1], [0, 0]]) ∧
    (tget (update_erroneous ⟨[[1, 1], [0, 0]], [[false, false], [false, false]],
        [[false, false], [false, false]], 2, 1, 2, 2⟩).1 0 0 = true ↔
      bget [[1, 1], [0, 0]] 0 0 ≠ 0 ∧
        tget [[false, false], [false, false]] 0 0 = false ∧
        ∃ r' c', r' < 2 ∧ c' < 2 ∧ (r' ≠ 0 ∨ c' ≠ 0) ∧ related 1 2 0 0 r' c' ∧
          bget [[1, 1], [0, 0]] r' c' = bget [[1, 1], [0, 0]] 0 0) :=
  ⟨⟨by decide, by decide, by decide, by decide⟩,
    (update_erroneous_characterization
      ⟨[[1, 1], [0, 0]], [[false, false], [false, false]],
        [[false, false], [false, false]], 2, 1, 2, 2⟩
      (by decide) (by decide) (by decide) (by decide)).1 0 0 (by decide) (by decide)⟩

theorem tget_const_false (N i j : ℕ) :
    tget ((List.range N).map fun _ => (List.range N).map fun _ => false) i j = false := by
  unfold tget
  rcases Nat.lt_or_ge i N with hi | hi
  · have h1 : ((List.range N).map fun _ => (List.range N).map fun _ => false).getD i []
        = (List.range N).map fun _ => false := by
      rw [getD_eq_getElem _ i [] (by rw [List.length_map, List.length_range]; exact hi),
        List.getElem_map]
    rw [h1]
    rcases Nat.lt_or_ge j N with hj | hj
    · rw [getD_eq_getElem _ j false (by rw [List.length_map, List.length_range]; exact hj),
        List.getElem_map]
    · rw [List.getD_eq_getElem?_getD,
        List.getElem?_eq_none (by rw [List.length_map, List.length_range]; exact hj),
        Option.getD_none]
  · have h1 : ((List.range N).map fun _ => (List.range N).map fun _ => false).getD i []
        = ([] : List Bool) := by
      rw [List.getD_eq_getElem?_getD,
        List.getElem?_eq_none (by rw [List.length_map, List.length_range]; exact hi),
        Option.getD_none]
    rw [h1]
    rfl

theorem print_board_snd (s : game_state) : (print_board s).2 = [Msg.printBoard] := by
  unfold print_board
  dsimp only
  split_ifs <;> rfl

theorem print_board_mode (s : game_state) : (print_board s).1.mode = s.mode := by
  unfold print_board
  dsimp only
  split_ifs <;> rfl

theorem print_board_m_list (s : game_state) : (print_board s).1.m_list = s.m_list := by
  unfold print_board
  dsimp only
  split_ifs <;> rfl

theorem print_board_board (s : game_state) :
    (print_board s).1.g_board.board = s.g_board.board := by
  unfold print_board
  dsimp only
  split_ifs <;> rfl

theorem print_board_empty (s : game_state) :
    (print_board s).1.g_board.empty_cells_num = s.g_board.empty_cells_num := by
  unfold print_board
  dsimp only
  split_ifs <;> rfl

theorem print_board_valid (s : game_state) : (print_board s).1.valid = s.valid := by
  unfold print_board
  dsimp only
  split_ifs <;> rfl

/-- C7: a `set` aimed at a fixed cell reports the error and leaves the whole
state untouched; a board loaded without clue marks (Edit-mode loading) has no
fixed cell; and on a board with no fixed cell `set` never takes the
fixed-cell branch and always proceeds to print. -/
theorem set_respects_fixed_cells :
    (∀ (s : game_state) (x y z : ℕ), tget s.g_board.fixed (y - 1) (x - 1) = true →
      set s x y z = (s, [Msg.errCellFixed]))
    ∧ (∀ (inp : load_input) (i j : ℕ), tget (load_game inp false).fixed i j = false)
    ∧ (∀ (s : game_state) (x y z : ℕ), (∀ i j, tget s.g_board.fixed i j = false) →
        Msg.errCellFixed ∉ (set s x y z).2 ∧ Msg.printBoard ∈ (set s x y z).2) := by
  refine ⟨fun s x y z h => ?_, fun inp i j => ?_, fun s x y z h => ?_⟩
  · unfold set
    dsimp only
    rw [if_pos h]
  · unfold load_game
    dsimp only
    simp only [Bool.false_and]
    exact tget_const_false _ i j
  · unfold set
    dsimp only
    rw [if_neg (by rw [h]; simp)]
    split_ifs <;> simp [print_board_snd]

/-- Game state used for the C6 counterexample: 1×1 board in Edit mode. -/
def c6_state : game_state :=
  ⟨GAME_MODE.Edit, true, ⟨[], 0⟩, ⟨[[0]], [[false]], [[false]], 1, 1, 1, 1⟩, true⟩

/-- C6 counterexample: a `set` writing the value already present (here `0`
into an empty cell) still records a change `(0, 0)` in the history, so the
claim that a no-op `set` records no change fails. -/
theorem set_same_value_still_records_change :
    (set c6_state 1 1 0).1.m_list.moves = [⟨[⟨0, 0, 0, 0⟩]⟩] ∧
    (set c6_state 1 1 0).1.g_board.board = c6_state.g_board.board := by decide

/-- C6 amended: every `set` on a non-fixed cell records exactly one move
holding exactly one change `(before, after)` — whether or not `before`
differs from `after` (no-op changes are not suppressed); shown here outside
the Solve-completion path along which the whole history is freed. -/
theorem set_always_records_one_change (s : game_state) (x y z : ℕ)
    (hfx : tget s.g_board.fixed (y - 1) (x - 1) = false)
    (hnf : ¬(s.mode = GAME_MODE.Solve ∧
      (set_cell s (y - 1) (x - 1) z).g_board.empty_cells_num = 0 ∧
      is_valid_board (print_board (set_cell s (y - 1) (x - 1) z)).1 = true)) :
    (set s x y z).1.m_list
      = add_move_node_to_list s.m_list
          ⟨[⟨y - 1, x - 1, bget s.g_board.board (y - 1) (x - 1), z⟩]⟩ := by
  unfold set
  dsimp only
  rw [if_neg (by rw [hfx]; simp)]
  split_ifs with h1 h2
  · exfalso
    apply hnf
    refine ⟨?_, ?_, h2⟩
    · have hm := print_board_mode (set_cell s (y - 1) (x - 1) z)
      rw [hm] at h1
      exact h1.1
    · have he := print_board_empty (set_cell s (y - 1) (x - 1) z)
      rw [he] at h1
      exact h1.2
  · exact print_board_m_list _
  · exact print_board_m_list _

/-- Witness for the C6 amended theorem: a `set` of the value already present
in Edit mode records the one-change move. -/
theorem set_always_records_one_change_witness :
    (tget c6_state.g_board.fixed 0 0 = false ∧
      ¬(c6_state.mode = GAME_MODE.Solve ∧
        (set_cell c6_state 0 0 0).g_board.empty_cells_num = 0 ∧
        is_valid_board (print_board (set_cell c6_state 0 0 0)).1 = true)) ∧
    (set c6_state 1 1 0).1.m_list
      = add_move_node_to_list c6_state.m_list ⟨[⟨0, 0, bget c6_state.g_board.board 0 0, 0⟩]⟩ :=
  ⟨⟨by decide, by decide⟩,
    set_always_records_one_change c6_state 1 1 0 (by decide) (by decide)⟩

/-- Game state used for the C1 exhibit: Solve mode, 1×1 board, one empty cell. -/
def c1_state : game_state :=
  ⟨GAME_MODE.Solve, true, ⟨[], 0⟩, ⟨[[0]], [[false]], [[false]], 1, 1, 1, 1⟩, true⟩

/-- C1: the `guess` command never adjusts `empty_cells_num`, although
`random_guess` fills cells on the game board; at the concrete state with one
empty cell and the LP giving the cell score 1, the board becomes full while
`empty_cells_num` stays 1, breaking the documented invariant
`empty_cells_num = number of zero cells` for all reachable states. -/
theorem guess_breaks_empty_cells_accounting :
    (∀ (s : game_state) (x : ℚ) (sol : List ℚ) (rv : List ℚ → List ℚ → ℕ),
      (guess s x sol rv).1.g_board.empty_cells_num = s.g_board.empty_cells_num)
    ∧ (guess c1_state 1 [1] (fun _ _ => 0)).1.g_board.board = [[1]]
    ∧ emptyCount 1 (guess c1_state 1 [1] (fun _ _ => 0)).1.g_board.board = 0
    ∧ (guess c1_state 1 [1] (fun _ _ => 0)).1.g_board.empty_cells_num = 1 := by
  refine ⟨fun s x sol rv => ?_, by decide, by decide, by decide⟩
  unfold guess
  dsimp only
  split_ifs
  · rfl
  · exact print_board_empty _

theorem countP_flatMap {α β : Type _} (l : List α) (f : α → List β) (p : β → Bool) :
    (l.flatMap f).countP p = (l.map fun a => (f a).countP p).sum := by
  induction l with
  | nil => rfl
  | cons a l IH =>
    rw [List.flatMap_cons, List.countP_append, List.map_cons, List.sum_cons, IH]

theorem countP_range_unique (c : ℕ) (q : ℕ → Bool)
    (hq : ∀ j, q j = true → j = c) :
    ∀ N : ℕ, c < N → (List.range N).countP q = if q c then 1 else 0 := by
  intro N
  induction N with
  | zero => omega
  | succ N IH =>
    intro hc
    rw [List.range_succ, List.countP_append]
    rcases Nat.lt_or_ge c N with h | h
    · rw [IH h]
      have hN : List.countP q [N] = 0 := by
        by_cases hqN : q N = true
        · exact absurd (hq N hqN) (by omega)
        · rw [show [N] = N :: ([] : List ℕ) from rfl, List.countP_cons]
          simp [hqN]
      rw [hN, Nat.add_zero]
    · have hcN : c = N := by omega
      subst hcN
      have h0 : (List.range c).countP q = 0 := by
        rw [List.countP_eq_length_filter]
        have : (List.range c).filter q = [] := by
          rw [List.filter_eq_nil_iff]
          intro j hj
          rw [List.mem_range] at hj
          intro hqj
          exact absurd (hq j hqj) (by omega)
        rw [this]
        rfl
      rw [h0, show [c] = c :: ([] : List ℕ) from rfl, List.countP_cons]
      by_cases hqc : q c = true <;> simp [hqc]

theorem sum_map_range_single (r X : ℕ) :
    ∀ N : ℕ, r < N → ((List.range N).map fun i => if i = r then X else 0).sum = X := by
  intro N
  induction N with
  | zero => omega
  | succ N IH =>
    intro hr
    rw [List.range_succ, List.map_append, List.sum_append]
    rcases Nat.lt_or_ge r N with h | h
    · rw [IH h]
      have hN : ((List.map (fun i => if i = r then X else 0) [N])).sum = 0 := by
        rw [List.map_cons, List.map_nil, List.sum_cons, List.sum_nil,
          if_neg (by omega : ¬ N = r), Nat.add_zero]
      rw [hN, Nat.add_zero]
    · have : r = N := by omega
      subst this
      have h0 : ((List.range r).map fun i => if i = r then X else 0).sum = 0 := by
        rw [List.sum_eq_zero]
        intro x hx
        rw [List.mem_map] at hx
        obtain ⟨i, hi, rfl⟩ := hx
        rw [List.mem_range] at hi
        show (if i = r then X else 0) = 0
        rw [if_neg (by omega : ¬ i = r)]
      rw [h0]
      simp

/-- Game state used for the C9 counterexample: Edit mode, full 1×1 board. -/
def c9_state : game_state :=
  ⟨GAME_MODE.Edit, true, ⟨[], 0⟩, ⟨[[1]], [[false]], [[false]], 1, 1, 1, 0⟩, true⟩

/-- C9 counterexample: `generate 0 1` on a full 1×1 board changes nothing,
yet the appended move records the change `(1, 1)` for the untouched cell —
refuting the claim that cells whose value is unchanged get no change. -/
theorem generate_records_change_for_unchanged_cell :
    (generate c9_state 0 1 []).1.g_board.board = c9_state.g_board.board ∧
    (generate c9_state 0 1 []).1.m_list.moves = [⟨[⟨0, 0, 1, 1⟩]⟩] := by decide

/-- C9 amended: the move packaged by `generate` holds exactly one change for
every cell that is filled after the command or was filled before it (with the
before/after values), so an unchanged nonzero cell is also recorded; every
recorded change has that shape; with `y = 0` (or on failure) no move is
appended; and on success the appended move is exactly this package. -/
theorem generate_move_contents :
    (∀ (old_board new_board : Board) (N r c : ℕ), r < N → c < N →
      (generate_move old_board new_board N).changes.countP
          (fun ch => ch.cell_rows == r && ch.cell_cols == c)
        = if bget new_board r c ≠ 0 ∨ bget old_board r c ≠ 0 then 1 else 0)
    ∧ (∀ (old_board new_board : Board) (N : ℕ),
        ∀ ch ∈ (generate_move old_board new_board N).changes,
          ch.cell_rows < N ∧ ch.cell_cols < N ∧
          ch.z1 = bget old_board ch.cell_rows ch.cell_cols ∧
          ch.z2 = bget new_board ch.cell_rows ch.cell_cols ∧
          (bget new_board ch.cell_rows ch.cell_cols ≠ 0 ∨
            bget old_board ch.cell_rows ch.cell_cols ≠ 0))
    ∧ (∀ (s : game_state) (x : ℕ) (rng : List ℕ),
        (generate s x 0 rng).1.m_list = s.m_list)
    ∧ (∀ (s : game_state) (x y : ℕ) (rng : List ℕ), 0 < y →
        (generate s x y rng).1.m_list = s.m_list ∨
        (generate s x y rng).1.m_list
          = add_move_node_to_list s.m_list
              (generate_move s.g_board.board (generate s x y rng).1.g_board.board
                s.g_board.N)) := by
  refine ⟨?_, ?_, ?_, ?_⟩
  · intro old_board new_board N r c hr hc
    unfold generate_move
    rw [countP_flatMap]
    have hin : ∀ i : ℕ,
        ((List.range N).filterMap fun cell_cols =>
            if bget new_board i cell_cols ≠ 0 ∨ bget old_board i cell_cols ≠ 0 then
              some (⟨i, cell_cols, bget old_board i cell_cols,
                bget new_board i cell_cols⟩ : change_node)
            else none).countP (fun ch => ch.cell_rows == r && ch.cell_cols == c)
          = if i = r then
              (if bget new_board r c ≠ 0 ∨ bget old_board r c ≠ 0 then 1 else 0)
            else 0 := by
      intro i
      rw [List.countP_filterMap]
      by_cases hir : i = r
      · subst hir
        rw [if_pos rfl]
        have hq : ∀ j : ℕ,
            ((Option.map (fun ch => ch.cell_rows == i && ch.cell_cols == c)
              (if bget new_board i j ≠ 0 ∨ bget old_board i j ≠ 0 then
                some (⟨i, j, bget old_board i j, bget new_board i j⟩ : change_node)
              else none)).getD false) = true → j = c := by
          intro j hj
          by_cases hP : bget new_board i j ≠ 0 ∨ bget old_board i j ≠ 0
          · rw [if_pos hP] at hj
            simp only [Option.map_some', Option.getD_some, Bool.and_eq_true, beq_iff_eq] at hj
            exact hj.2
          · rw [if_neg hP] at hj
            simp at hj
        rw [countP_range_unique c _ hq N hc]
        by_cases hP : bget new_board i c ≠ 0 ∨ bget old_board i c ≠ 0
        · rw [if_pos hP, if_pos hP]
          simp
        · rw [if_neg hP, if_neg hP]
          simp
      · rw [if_neg hir]
        rw [List.countP_eq_length_filter, List.length_eq_zero, List.filter_eq_nil_iff]
        intro j _
        by_cases hP : bget new_board i j ≠ 0 ∨ bget old_board i j ≠ 0
        · simp [hP, hir]
        · simp [hP]
    have hmap : ((List.range N).map fun i =>
        ((List.range N).filterMap fun cell_cols =>
            if bget new_board i cell_cols ≠ 0 ∨ bget old_board i cell_cols ≠ 0 then
              some (⟨i, cell_cols, bget old_board i cell_cols,
                bget new_board i cell_cols⟩ : change_node)
            else none).countP (fun ch => ch.cell_rows == r && ch.cell_cols == c))
        = (List.range N).map fun i => if i = r then
            (if bget new_board r c ≠ 0 ∨ bget old_board r c ≠ 0 then 1 else 0)
          else 0 := by
      exact List.map_congr_left fun i _ => hin i
    rw [hmap, sum_map_range_single r _ N hr]
  · intro old_board new_board N ch hch
    unfold generate_move at hch
    rw [List.mem_flatMap] at hch
    obtain ⟨i, hi, hch⟩ := hch
    rw [List.mem_range] at hi
    rw [List.mem_filterMap] at hch
    obtain ⟨j, hj, hch⟩ := hch
    rw [List.mem_range] at hj
    by_cases hP : bget new_board i j ≠ 0 ∨ bget old_board i j ≠ 0
    · rw [if_pos hP] at hch
      cases hch
      exact ⟨hi, hj, rfl, rfl, hP⟩
    · rw [if_neg hP] at hch
      cases hch
  · intro s x rng
    unfold generate
    dsimp only
    split_ifs with h1 h2
    · rfl
    · split
      · rfl
      · exact absurd h2 (by omega)
    · split
      · rfl
      · dsimp only
        rw [print_board_m_list]
  · intro s x y rng hy
    unfold generate
    dsimp only
    split_ifs with h1
    · exact Or.inl rfl
    · split
      · exact Or.inl rfl
      · refine Or.inr ?_
        dsimp only
        rw [print_board_m_list, print_board_board]

/-- Witness for the C9 amended theorem at concrete inputs. -/
theorem generate_move_contents_witness :
    ((0 : ℕ) < 1 ∧ (0 : ℕ) < 1 ∧ (0 : ℕ) < 1) ∧
    ((generate_move [[1]] [[1]] 1).changes.countP
        (fun ch => ch.cell_rows == 0 && ch.cell_cols == 0)
      = if bget [[1]] 0 0 ≠ 0 ∨ bget [[1]] 0 0 ≠ 0 then 1 else 0) ∧
    ((generate c9_state 0 1 []).1.m_list = c9_state.m_list ∨
      (generate c9_state 0 1 []).1.m_list
        = add_move_node_to_list c9_state.m_list
            (generate_move c9_state.g_board.board
              (generate c9_state 0 1 []).1.g_board.board c9_state.g_board.N)) :=
  ⟨⟨Nat.one_pos, Nat.one_pos, Nat.one_pos⟩,
    generate_move_contents.1 [[1]] [[1]] 1 0 0 Nat.one_pos Nat.one_pos,
    generate_move_contents.2.2.2 c9_state 0 1 [] Nat.one_pos⟩

theorem foldl_preserves_mode (cs : List change_node)
    (f : game_state → change_node → game_state)
    (hf : ∀ st ch, (f st ch).mode = st.mode) :
    ∀ s : game_state, (cs.foldl f s).mode = s.mode := by
  induction cs with
  | nil => intro s; rfl
  | cons ch cs IH =>
    intro s
    rw [List.foldl_cons, IH, hf]

theorem foldl_preserves_valid (cs : List change_node)
    (f : game_state → change_node → game_state)
    (hf : ∀ st ch, (f st ch).valid = st.valid) :
    ∀ s : game_state, (cs.foldl f s).valid = s.valid := by
  induction cs with
  | nil => intro s; rfl
  | cons ch cs IH =>
    intro s
    rw [List.foldl_cons, IH, hf]

theorem foldl_triple_preserves {α : Type _} (l : List α)
    (f : game_state × move_node × List Msg → α → game_state × move_node × List Msg)
    (hf : ∀ a x, (f a x).1.mode = a.1.mode ∧ (f a x).1.valid = a.1.valid) :
    ∀ a, (l.foldl f a).1.mode = a.1.mode ∧ (l.foldl f a).1.valid = a.1.valid := by
  induction l with
  | nil => intro a; exact ⟨rfl, rfl⟩
  | cons x l IH =>
    intro a
    rw [List.foldl_cons]
    exact ⟨((IH (f a x)).1).trans (hf a x).1, ((IH (f a x)).2).trans (hf a x).2⟩

theorem autofill_step_preserves (ob : Board) (br bc : ℕ)
    (a : game_state × move_node × List Msg) (rc : ℕ × ℕ) :
    (autofill_step ob br bc a rc).1.mode = a.1.mode ∧
    (autofill_step ob br bc a rc).1.valid = a.1.valid := by
  unfold autofill_step
  dsimp only
  split_ifs <;> exact ⟨rfl, rfl⟩

/-- Game state used for the C3 counterexample: Solve mode, one empty cell,
the single move (filling it legally) undone, cursor on the sentinel. -/
def c3_state : game_state :=
  ⟨GAME_MODE.Solve, true, ⟨[⟨[⟨1, 1, 0, 1⟩]⟩], 0⟩,
    ⟨[[1, 2], [2, 0]], [[false, false], [false, false]],
      [[false, false], [false, false]], 2, 1, 2, 1⟩, true⟩

/-- C3 counterexample: this `redo` fills the last empty cell of a solvable
board, yet no ILP check runs — the game is not freed, the mode stays Solve,
and no solved/erroneous report is printed. -/
theorem redo_skips_completion_check :
    (redo c3_state).1.g_board.empty_cells_num = 0 ∧
    is_valid_board (redo c3_state).1 = true ∧
    (redo c3_state).1.mode = GAME_MODE.Solve ∧
    (redo c3_state).1.valid = true ∧
    Msg.puzzleSolved ∉ (redo c3_state).2 ∧
    Msg.solutionErroneous ∉ (redo c3_state).2 := by decide

/-- C3 amended: in Solve mode, when `set` (on a non-fixed cell) or `autofill`
(on a non-erroneous board) leaves zero empty cells, the ILP check runs —
solvable frees the game back to Init, unsolvable keeps Solve mode with an
erroneous-solution report; `redo` never runs the check: it preserves the
mode and validity flag and never reports the puzzle solved or erroneous. -/
theorem completion_check_on_set_autofill_not_redo :
    (∀ (s : game_state) (x y z : ℕ), s.mode = GAME_MODE.Solve →
      tget s.g_board.fixed (y - 1) (x - 1) = false →
      (set s x y z).1.g_board.empty_cells_num = 0 →
      (if is_valid_board (set s x y z).1 then
        (set s x y z).1.mode = GAME_MODE.Init ∧ (set s x y z).1.valid = false ∧
          Msg.puzzleSolved ∈ (set s x y z).2
      else
        (set s x y z).1.mode = GAME_MODE.Solve ∧
          Msg.solutionErroneous ∈ (set s x y z).2))
    ∧ (∀ s : game_state, s.mode = GAME_MODE.Solve →
        (update_erroneous s.g_board).2 = false →
        (autofill s).1.g_board.empty_cells_num = 0 →
        (is_valid_board (autofill s).1 = true →
          (autofill s).1.mode = GAME_MODE.Init ∧ (autofill s).1.valid = false ∧
            Msg.puzzleSolved ∈ (autofill s).2) ∧
        (is_valid_board (autofill s).1 = false →
          (autofill s).1.mode = GAME_MODE.Solve ∧
            Msg.solutionErroneous ∈ (autofill s).2))
    ∧ (∀ s : game_state,
        (redo s).1.mode = s.mode ∧ (redo s).1.valid = s.valid ∧
        Msg.puzzleSolved ∉ (redo s).2 ∧ Msg.solutionErroneous ∉ (redo s).2) := by
  refine ⟨?_, ?_, ?_⟩
  · intro s x y z hmode hfix hempty
    have hres : set s x y z =
        (let pm := print_board (set_cell s (y - 1) (x - 1) z)
         if pm.1.mode = GAME_MODE.Solve ∧ pm.1.g_board.empty_cells_num = 0 then
           if is_valid_board pm.1 then (free_game pm.1, pm.2 ++ [Msg.puzzleSolved])
           else (pm.1, pm.2 ++ [Msg.solutionErroneous])
         else pm) := by
      unfold set
      dsimp only
      rw [if_neg (by simp [hfix])]
    rw [hres] at hempty ⊢
    dsimp only at hempty ⊢
    have hpmode : (print_board (set_cell s (y - 1) (x - 1) z)).1.mode
        = GAME_MODE.Solve := by
      rw [print_board_mode]
      exact hmode
    by_cases hpe : (print_board (set_cell s (y - 1) (x - 1) z)).1.g_board.empty_cells_num
        = 0
    · have hcond := And.intro hpmode hpe
      rw [if_pos hcond] at hempty ⊢
      by_cases hv : is_valid_board (print_board (set_cell s (y - 1) (x - 1) z)).1 = true
      · rw [if_pos hv] at hempty ⊢
        dsimp only at hempty ⊢
        rw [if_pos (show is_valid_board
            (free_game (print_board (set_cell s (y - 1) (x - 1) z)).1) = true from hv)]
        refine ⟨rfl, rfl, ?_⟩
        rw [List.mem_append]
        exact Or.inr (List.mem_singleton.mpr rfl)
      · rw [if_neg hv] at hempty ⊢
        dsimp only at hempty ⊢
        rw [if_neg (show ¬ is_valid_board
            (print_board (set_cell s (y - 1) (x - 1) z)).1 = true from hv)]
        refine ⟨hpmode, ?_⟩
        rw [List.mem_append]
        exact Or.inr (List.mem_singleton.mpr rfl)
    · rw [if_neg (by intro hc; exact hpe hc.2)] at hempty
      exact absurd hempty hpe
  · intro s hmode hue hempty
    constructor
    · intro hv
      unfold autofill at hempty hv ⊢
      dsimp only at hempty hv ⊢
      rw [if_neg (by simp [hue])] at hempty hv ⊢
      split_ifs at hempty hv ⊢ with h1 h2 h3 h2 h3
      · refine ⟨rfl, rfl, by simp⟩
      · exact absurd hv (by simp [h3])
      · exact absurd hempty h2
      · refine ⟨rfl, rfl, by simp⟩
      · exact absurd hv (by simp [h3])
      · exact absurd hempty h2
    · intro hv
      unfold autofill at hempty hv ⊢
      dsimp only at hempty hv ⊢
      rw [if_neg (by simp [hue])] at hempty hv ⊢
      split_ifs at hempty hv ⊢ with h1 h2 h3 h2 h3
      · exact absurd hv (by simp [show is_valid_board (free_game _) = true from h3])
      · refine ⟨?_, by simp⟩
        rw [print_board_mode]
        dsimp only
        exact ((foldl_triple_preserves _ _
          (autofill_step_preserves s.g_board.board s.g_board.block_rows
            s.g_board.block_cols) _).1).trans hmode
      · exact absurd hempty h2
      · exact absurd hv (by simp [show is_valid_board (free_game _) = true from h3])
      · refine ⟨?_, by simp⟩
        rw [print_board_mode]
        exact ((foldl_triple_preserves _ _
          (autofill_step_preserves s.g_board.board s.g_board.block_rows
            s.g_board.block_cols) _).1).trans hmode
      · exact absurd hempty h2
  · intro s
    unfold redo
    dsimp only
    split_ifs
    · refine ⟨?_, ?_, ?_, ?_⟩
      · rw [print_board_mode]
        exact foldl_preserves_mode _
          (fun st ch => change_cell st ch.cell_rows ch.cell_cols ch.z1 ch.z2)
          (fun st ch => rfl) _
      · rw [print_board_valid]
        exact foldl_preserves_valid _
          (fun st ch => change_cell st ch.cell_rows ch.cell_cols ch.z1 ch.z2)
          (fun st ch => rfl) _
      · rw [print_board_snd]
        intro hmem
        rw [List.mem_append] at hmem
        rcases hmem with hmem | hmem
        · exact absurd (List.mem_singleton.mp hmem) (by simp)
        · rw [List.mem_map] at hmem
          obtain ⟨ch, _, hch⟩ := hmem
          exact Msg.noConfusion hch
      · rw [print_board_snd]
        intro hmem
        rw [List.mem_append] at hmem
        rcases hmem with hmem | hmem
        · exact absurd (List.mem_singleton.mp hmem) (by simp)
        · rw [List.mem_map] at hmem
          obtain ⟨ch, _, hch⟩ := hmem
          exact Msg.noConfusion hch
    · exact ⟨rfl, rfl, by simp, by simp⟩

/-- Game state used for the C3 witness: Solve mode, 1×1 board, one empty
cell, no fixed cells. -/
def c3w_state : game_state :=
  ⟨GAME_MODE.Solve, true, ⟨[], 0⟩, ⟨[[0]], [[false]], [[false]], 1, 1, 1, 1⟩, true⟩

/-- Witness for the C3 amended theorem: a completing `set` on a 1×1 Solve
game frees the state and reports the puzzle solved. -/
theorem completion_check_on_set_autofill_not_redo_witness :
    (c3w_state.mode = GAME_MODE.Solve ∧
      tget c3w_state.g_board.fixed 0 0 = false ∧
      (set c3w_state 1 1 1).1.g_board.empty_cells_num = 0) ∧
    (if is_valid_board (set c3w_state 1 1 1).1 then
      (set c3w_state 1 1 1).1.mode = GAME_MODE.Init ∧
        (set c3w_state 1 1 1).1.valid = false ∧
        Msg.puzzleSolved ∈ (set c3w_state 1 1 1).2
    else
      (set c3w_state 1 1 1).1.mode = GAME_MODE.Solve ∧
        Msg.solutionErroneous ∈ (set c3w_state 1 1 1).2) :=
  ⟨⟨by decide, by decide, by decide⟩,
    completion_check_on_set_autofill_not_redo.1 c3w_state 1 1 1
      (by decide) (by decide) (by decide)⟩

/-- The winning (latest) change a move records for a given cell. -/
def last_change_at : List change_node → ℕ → ℕ → Option change_node
  | [], _, _ => none
  | ch :: cs, r, c =>
    match last_change_at cs r c with
    | some ch' => some ch'
    | none => if ch.cell_rows = r ∧ ch.cell_cols = c then some ch else none

theorem WF_foldl_bset (g : change_node → ℕ) (N : ℕ) :
    ∀ (cs : List change_node) (b : Board), WF N b →
      WF N (cs.foldl (fun bb ch => bset bb ch.cell_rows ch.cell_cols (g ch)) b) := by
  intro cs
  induction cs with
  | nil => intro b hw; exact hw
  | cons ch cs IH =>
    intro b hw
    rw [List.foldl_cons]
    exact IH _ (WF_bset hw _ _ _)

theorem bget_foldl_write (g : change_node → ℕ) (N : ℕ) :
    ∀ (cs : List change_node) (b : Board), WF N b →
      ∀ r c, r < N → c < N →
      bget (cs.foldl (fun bb ch => bset bb ch.cell_rows ch.cell_cols (g ch)) b) r c
        = ((last_change_at cs r c).map g).getD (bget b r c) := by
  intro cs
  induction cs with
  | nil => intro b hw r c hrN hcN; rfl
  | cons ch cs IH =>
    intro b hw r c hrN hcN
    rw [List.foldl_cons]
    rw [IH (bset b ch.cell_rows ch.cell_cols (g ch)) (WF_bset hw _ _ _) r c hrN hcN]
    cases hl : last_change_at cs r c with
    | some ch' =>
      rw [show last_change_at (ch :: cs) r c = some ch' from by
        unfold last_change_at
        rw [hl]]
      rfl
    | none =>
      rw [show last_change_at (ch :: cs) r c
          = (if ch.cell_rows = r ∧ ch.cell_cols = c then some ch else none) from by
        unfold last_change_at
        rw [hl]]
      by_cases hmatch : ch.cell_rows = r ∧ ch.cell_cols = c
      · rw [if_pos hmatch]
        obtain ⟨h1, h2⟩ := hmatch
        simp only [Option.map_none', Option.getD_none, Option.map_some', Option.getD_some]
        rw [h1, h2]
        rw [bget_bset_same]
        · rw [hw.1]
          exact hrN
        · rw [row_getD_of_WF hw hrN]
          exact hcN
      · rw [if_neg hmatch]
        simp only [Option.map_none', Option.getD_none]
        rw [bget_bset_ne]
        by_cases hr1 : ch.cell_rows = r
        · exact Or.inr fun hc1 => hmatch ⟨hr1, hc1⟩
        · exact Or.inl hr1

theorem board_ext {N : ℕ} {b b' : Board} (hw : WF N b) (hw' : WF N b')
    (h : ∀ r c, r < N → c < N → bget b r c = bget b' r c) : b = b' := by
  apply List.ext_getElem
  · rw [hw.1, hw'.1]
  intro i h1 h2
  apply List.ext_getElem
  · rw [hw.2 _ (List.getElem_mem h1), hw'.2 _ (List.getElem_mem h2)]
  intro j hj1 hj2
  have hiN : i < N := by rw [hw.1] at h1; exact h1
  have hjN : j < N := by
    have hr := hw.2 _ (List.getElem_mem h1)
    rw [hr] at hj1
    exact hj1
  have hb := h i j hiN hjN
  unfold bget at hb
  rw [getD_eq_getElem b i [] h1, getD_eq_getElem _ j 0 hj1,
    getD_eq_getElem b' i [] h2, getD_eq_getElem _ j 0 hj2] at hb
  exact hb

theorem foldl_change_cell_board (g1 g2 : change_node → ℕ) :
    ∀ (cs : List change_node) (s : game_state),
      (cs.foldl (fun st ch =>
          change_cell st ch.cell_rows ch.cell_cols (g1 ch) (g2 ch)) s).g_board.board
        = cs.foldl (fun bb ch => bset bb ch.cell_rows ch.cell_cols (g2 ch))
            s.g_board.board := by
  intro cs
  induction cs with
  | nil => intro s; rfl
  | cons ch cs IH =>
    intro s
    rw [List.foldl_cons, List.foldl_cons, IH]
    rfl

theorem foldl_change_cell_empty (g1 g2 : change_node → ℕ) :
    ∀ (cs : List change_node) (s : game_state),
      (cs.foldl (fun st ch =>
          change_cell st ch.cell_rows ch.cell_cols (g1 ch) (g2 ch)) s).g_board.empty_cells_num
        = s.g_board.empty_cells_num
          - (cs.map fun ch => boolInt (g2 ch != 0) - boolInt (g1 ch != 0)).sum := by
  intro cs
  induction cs with
  | nil => intro s; simp
  | cons ch cs IH =>
    intro s
    rw [List.foldl_cons, List.map_cons, List.sum_cons, IH]
    show s.g_board.empty_cells_num - (boolInt (g2 ch != 0) - boolInt (g1 ch != 0)) - _ = _
    ring

theorem undo_redo_delta_cancel : ∀ cs : List change_node,
    (cs.map fun ch => boolInt (ch.z1 != 0) - boolInt (ch.z2 != 0)).sum
      + (cs.map fun ch => boolInt (ch.z2 != 0) - boolInt (ch.z1 != 0)).sum = 0 := by
  intro cs
  induction cs with
  | nil => simp
  | cons ch cs IH =>
    rw [List.map_cons, List.map_cons, List.sum_cons, List.sum_cons]
    linarith [IH]

theorem undo_of_can (s : game_state) (hu : can_undo s.m_list = true) :
    undo s =
      (let cs := get_curr_pointer_changes_iter s.m_list
       let s1 := cs.foldl
         (fun st ch => change_cell st ch.cell_rows ch.cell_cols ch.z2 ch.z1) s
       let pm := print_board s1
       ({pm.1 with m_list := dec_curr_pointer pm.1.m_list},
        pm.2 ++ cs.map fun ch =>
          Msg.undoChange (ch.cell_cols + 1) (ch.cell_rows + 1) ch.z1 ch.z2)) := by
  unfold undo
  rw [if_neg (by simp [hu])]

theorem redo_of_can (s : game_state) (hr : can_redo s.m_list = true) :
    redo s =
      (let ml := inc_curr_pointer s.m_list
       let cs := get_curr_pointer_changes_iter ml
       let s1 := cs.foldl
         (fun st ch => change_cell st ch.cell_rows ch.cell_cols ch.z1 ch.z2)
         {s with m_list := ml}
       let pm := print_board s1
       (pm.1, pm.2 ++ cs.map fun ch =>
          Msg.redoChange (ch.cell_cols + 1) (ch.cell_rows + 1) ch.z1 ch.z2)) := by
  unfold redo
  rw [if_neg (by simp [hr])]

/-- C4: on a well-formed game state where `can_undo` holds, the cursor move's
changes lie in the history prefix (`curr ≤ length`) and the move is
consistent with the board (its last change per cell recorded the value the
cell now holds), `undo` followed by `redo` is the identity on the board
values, on `empty_cells_num` and on the history (moves and cursor). -/
theorem undo_redo_identity (s : game_state)
    (hN : WF s.g_board.N s.g_board.board)
    (hu : can_undo s.m_list = true)
    (hlen : s.m_list.curr ≤ s.m_list.moves.length)
    (hcons : ∀ r c ch,
      last_change_at (get_curr_pointer_changes_iter s.m_list) r c = some ch →
      ch.z2 = bget s.g_board.board r c) :
    (redo (undo s).1).1.g_board.board = s.g_board.board ∧
    (redo (undo s).1).1.g_board.empty_cells_num = s.g_board.empty_cells_num ∧
    (redo (undo s).1).1.m_list = s.m_list := by
  have hc0 : s.m_list.curr ≠ 0 := by simpa [can_undo] using hu
  have hUml : (undo s).1.m_list = ⟨s.m_list.moves, s.m_list.curr - 1⟩ := by
    rw [undo_of_can s hu]
    dsimp only
    rw [print_board_m_list,
      foldl_preserves_m_list _
        (fun st ch => change_cell st ch.cell_rows ch.cell_cols ch.z2 ch.z1)
        (fun st ch => rfl)]
    rfl
  have hUboard : (undo s).1.g_board.board
      = (get_curr_pointer_changes_iter s.m_list).foldl
          (fun bb ch => bset bb ch.cell_rows ch.cell_cols ch.z1) s.g_board.board := by
    rw [undo_of_can s hu]
    dsimp only
    rw [print_board_board,
      foldl_change_cell_board (fun ch => ch.z2) (fun ch => ch.z1)]
  have hUempty : (undo s).1.g_board.empty_cells_num
      = s.g_board.empty_cells_num
        - ((get_curr_pointer_changes_iter s.m_list).map fun ch =>
            boolInt (ch.z1 != 0) - boolInt (ch.z2 != 0)).sum := by
    rw [undo_of_can s hu]
    dsimp only
    rw [print_board_empty,
      foldl_change_cell_empty (fun ch => ch.z2) (fun ch => ch.z1)]
  have hcr : can_redo (undo s).1.m_list = true := by
    rw [hUml]
    simp only [can_redo, decide_eq_true_eq]
    omega
  have hcs2 : get_curr_pointer_changes_iter (inc_curr_pointer (undo s).1.m_list)
      = get_curr_pointer_changes_iter s.m_list := by
    rw [hUml]
    show get_curr_pointer_changes_iter ⟨s.m_list.moves, s.m_list.curr - 1 + 1⟩ = _
    rw [show s.m_list.curr - 1 + 1 = s.m_list.curr from by omega]
  have hml2 : inc_curr_pointer (undo s).1.m_list = s.m_list := by
    rw [hUml]
    show (⟨s.m_list.moves, s.m_list.curr - 1 + 1⟩ : moves_list) = s.m_list
    rw [show s.m_list.curr - 1 + 1 = s.m_list.curr from by omega]
  rw [redo_of_can _ hcr]
  dsimp only
  rw [print_board_board, print_board_empty, print_board_m_list,
    foldl_change_cell_board (fun ch => ch.z1) (fun ch => ch.z2),
    foldl_change_cell_empty (fun ch => ch.z1) (fun ch => ch.z2),
    foldl_preserves_m_list _
      (fun st ch => change_cell st ch.cell_rows ch.cell_cols ch.z1 ch.z2)
      (fun st ch => rfl), hcs2]
  refine ⟨?_, ?_, hml2⟩
  · show (get_curr_pointer_changes_iter s.m_list).foldl
        (fun bb ch => bset bb ch.cell_rows ch.cell_cols ch.z2)
        (undo s).1.g_board.board = s.g_board.board
    rw [hUboard]
    have hWF1 := WF_foldl_bset (fun ch => ch.z1) s.g_board.N
      (get_curr_pointer_changes_iter s.m_list) s.g_board.board hN
    have hWF2 := WF_foldl_bset (fun ch => ch.z2) s.g_board.N
      (get_curr_pointer_changes_iter s.m_list) _ hWF1
    refine board_ext hWF2 hN ?_
    intro r c hrN hcN
    rw [bget_foldl_write (fun ch => ch.z2) s.g_board.N _ _ hWF1 r c hrN hcN,
      bget_foldl_write (fun ch => ch.z1) s.g_board.N _ _ hN r c hrN hcN]
    cases hl : last_change_at (get_curr_pointer_changes_iter s.m_list) r c with
    | some ch => exact (hcons r c ch hl).symm ▸ rfl
    | none => rfl
  · show (undo s).1.g_board.empty_cells_num
        - ((get_curr_pointer_changes_iter s.m_list).map fun ch =>
            boolInt (ch.z2 != 0) - boolInt (ch.z1 != 0)).sum
        = s.g_board.empty_cells_num
    rw [hUempty]
    linarith [undo_redo_delta_cancel (get_curr_pointer_changes_iter s.m_list)]

/-- Game state used for the C4 witness: 1×1 solved board with one
re-doable move in the history. -/
def c4w_state : game_state :=
  ⟨GAME_MODE.Solve, true, ⟨[⟨[⟨0, 0, 0, 1⟩]⟩], 1⟩,
    ⟨[[1]], [[false]], [[false]], 1, 1, 1, 0⟩, true⟩

theorem c4w_hcons : ∀ r c ch,
    last_change_at (get_curr_pointer_changes_iter c4w_state.m_list) r c = some ch →
    ch.z2 = bget c4w_state.g_board.board r c := by
  intro r c ch h
  have hcs : get_curr_pointer_changes_iter c4w_state.m_list
      = [⟨0, 0, 0, 1⟩] := by decide
  rw [hcs] at h
  unfold last_change_at at h
  by_cases hm : (0 : ℕ) = r ∧ (0 : ℕ) = c
  · obtain ⟨h1, h2⟩ := hm
    rw [if_pos ⟨h1, h2⟩] at h
    cases h
    rw [← h1, ← h2]
    decide
  · rw [if_neg hm] at h
    cases h

/-- Witness for C4 at the concrete 1×1 state. -/
theorem undo_redo_identity_witness :
    (WF c4w_state.g_board.N c4w_state.g_board.board ∧
     can_undo c4w_state.m_list = true ∧
     c4w_state.m_list.curr ≤ c4w_state.m_list.moves.length) ∧
    (redo (undo c4w_state).1).1.g_board.board = c4w_state.g_board.board ∧
    (redo (undo c4w_state).1).1.g_board.empty_cells_num
      = c4w_state.g_board.empty_cells_num ∧
    (redo (undo c4w_state).1).1.m_list = c4w_state.m_list :=
  ⟨⟨by decide, by decide, by decide⟩,
   undo_redo_identity c4w_state (by decide) (by decide) (by decide) c4w_hcons⟩

theorem undo_m_list (s : game_state) (hu : can_undo s.m_list = true) :
    (undo s).1.m_list = ⟨s.m_list.moves, s.m_list.curr - 1⟩ := by
  rw [undo_of_can s hu]
  dsimp only
  rw [print_board_m_list,
    foldl_preserves_m_list _
      (fun st ch => change_cell st ch.cell_rows ch.cell_cols ch.z2 ch.z1)
      (fun st ch => rfl)]
  rfl

theorem undo_board (s : game_state) (hu : can_undo s.m_list = true) :
    (undo s).1.g_board.board
      = (get_curr_pointer_changes_iter s.m_list).foldl
          (fun bb ch => bset bb ch.cell_rows ch.cell_cols ch.z1) s.g_board.board := by
  rw [undo_of_can s hu]
  dsimp only
  rw [print_board_board,
    foldl_change_cell_board (fun ch => ch.z2) (fun ch => ch.z1)]

theorem undo_empty (s : game_state) (hu : can_undo s.m_list = true) :
    (undo s).1.g_board.empty_cells_num
      = s.g_board.empty_cells_num
        - ((get_curr_pointer_changes_iter s.m_list).map fun ch =>
            boolInt (ch.z1 != 0) - boolInt (ch.z2 != 0)).sum := by
  rw [undo_of_can s hu]
  dsimp only
  rw [print_board_empty,
    foldl_change_cell_empty (fun ch => ch.z2) (fun ch => ch.z1)]

/-- The spec's description of `reset`: perform `undo` repeatedly until
`can_undo` is false (the printed output is discarded). -/
def undo_until (s : game_state) : game_state :=
  if h : can_undo s.m_list then undo_until (undo s).1 else s
termination_by s.m_list.curr
decreasing_by
  rw [undo_m_list s h]
  show s.m_list.curr - 1 < s.m_list.curr
  have hc0 : s.m_list.curr ≠ 0 := by simpa [can_undo] using h
  omega

theorem reset_loop_eq_undo_until :
    ∀ n : ℕ, ∀ s t : game_state, s.m_list.curr ≤ n →
      s.g_board.board = t.g_board.board →
      s.g_board.empty_cells_num = t.g_board.empty_cells_num →
      s.m_list = t.m_list →
      (reset_loop s).g_board.board = (undo_until t).g_board.board ∧
      (reset_loop s).g_board.empty_cells_num
        = (undo_until t).g_board.empty_cells_num ∧
      (reset_loop s).m_list.curr = (undo_until t).m_list.curr := by
  intro n
  induction n with
  | zero =>
    intro s t hn hb he hm
    have h0 : s.m_list.curr = 0 := by omega
    have hcu : ¬ can_undo s.m_list = true := by simp [can_undo, h0]
    rw [reset_loop.eq_def, undo_until.eq_def, dif_neg hcu,
      dif_neg (show ¬ can_undo t.m_list = true from hm ▸ hcu)]
    exact ⟨hb, he, by rw [hm]⟩
  | succ n IH =>
    intro s t hn hb he hm
    by_cases hcu : can_undo s.m_list = true
    · have hut : can_undo t.m_list = true := hm ▸ hcu
      have hc0 : s.m_list.curr ≠ 0 := by simpa [can_undo] using hcu
      rw [reset_loop.eq_def, undo_until.eq_def, dif_pos hcu, dif_pos hut]
      apply IH
      · show (dec_curr_pointer s.m_list).curr ≤ n
        show s.m_list.curr - 1 ≤ n
        omega
      · show (List.foldl
            (fun st ch => change_cell st ch.cell_rows ch.cell_cols ch.z2 ch.z1) s
            (get_curr_pointer_changes_iter s.m_list)).g_board.board
          = (undo t).1.g_board.board
        rw [undo_board t hut,
          foldl_change_cell_board (fun ch => ch.z2) (fun ch => ch.z1), hb, hm]
      · show (List.foldl
            (fun st ch => change_cell st ch.cell_rows ch.cell_cols ch.z2 ch.z1) s
            (get_curr_pointer_changes_iter s.m_list)).g_board.empty_cells_num
          = (undo t).1.g_board.empty_cells_num
        rw [undo_empty t hut,
          foldl_change_cell_empty (fun ch => ch.z2) (fun ch => ch.z1), he, hm]
      · show dec_curr_pointer s.m_list = (undo t).1.m_list
        rw [undo_m_list t hut, hm]
        rfl
    · rw [reset_loop.eq_def, undo_until.eq_def, dif_neg hcu,
        dif_neg (show ¬ can_undo t.m_list = true from hm ▸ hcu)]
      exact ⟨hb, he, by rw [hm]⟩

/-- C5: `reset` yields the same board values, the same `empty_cells_num` and
the same history cursor as performing `undo` repeatedly until `can_undo`
fails. -/
theorem reset_eq_repeated_undo : ∀ s : game_state,
    (reset s).1.g_board.board = (undo_until s).g_board.board ∧
    (reset s).1.g_board.empty_cells_num = (undo_until s).g_board.empty_cells_num ∧
    (reset s).1.m_list.curr = (undo_until s).m_list.curr := by
  intro s
  unfold reset
  rw [print_board_board, print_board_empty, print_board_m_list]
  exact reset_loop_eq_undo_until s.m_list.curr s s le_rfl rfl rfl rfl

/-- Game state used for the C7 witness: Solve mode, 1×1 board, the only cell
fixed. -/
def c7w_state : game_state :=
  ⟨GAME_MODE.Solve, true, ⟨[], 0⟩, ⟨[[1]], [[false]], [[true]], 1, 1, 1, 0⟩, true⟩

/-- Witness for C7 at concrete inputs: the fixed cell refuses the `set`, an
Edit-mode load fixes nothing, and `set` on a fixed-free board proceeds. -/
theorem set_respects_fixed_cells_witness :
    (tget c7w_state.g_board.fixed 0 0 = true ∧
      (∀ i j, tget c3w_state.g_board.fixed i j = false)) ∧
    set c7w_state 1 1 0 = (c7w_state, [Msg.errCellFixed]) ∧
    tget (load_game ⟨1, 1, [(1, true)]⟩ false).fixed 0 0 = false ∧
    (Msg.errCellFixed ∉ (set c3w_state 1 1 1).2 ∧
      Msg.printBoard ∈ (set c3w_state 1 1 1).2) :=
  ⟨⟨by decide, fun i j => by
      unfold c3w_state tget
      rcases i with _ | i
      · rcases j with _ | j <;> rfl
      · rcases i with _ | i <;> rfl⟩,
    set_respects_fixed_cells.1 c7w_state 1 1 0 (by decide),
    set_respects_fixed_cells.2.1 ⟨1, 1, [(1, true)]⟩ 0 0,
    set_respects_fixed_cells.2.2 c3w_state 1 1 1 (fun i j => by
      unfold c3w_state tget
      rcases i with _ | i
      · rcases j with _ | j <;> rfl
      · rcases i with _ | i <;> rfl)⟩

end Sudoku
